import Mathlib

/-!
Verification development for the maitre_d seating engine.

Shallow embedding of the Python sources `family.py`, `seating_requests.py`
and `seating_chart.py`.  Conventions:

* Python `int` is embedded as `Nat` where the source value is always a
  count, and as `Int` where the source performs subtractions that can go
  negative (`remaining = capacity - used`).
* Python `dict` / `set` keyed by `Family` objects use `Family.__eq__`
  (email comparison only, see family.py); they are embedded as
  association lists / lists with lookup by `Family.beq`.  Insertion keeps
  the original key object and its position, as CPython dicts do.
  Python `set` iteration order is implementation defined; the embedding
  fixes insertion order, and every general theorem proved below is
  insensitive to that order.
* `debug` printing in the source is observational only and is not
  modelled (note: `place_cluster_into_area` would actually raise
  `AttributeError` on `fam.part` when `debug=True`, since `Family` has no
  `part` attribute; all tests call with `debug=False`).
* Fallible code is embedded with `Except`.
-/

deriving instance DecidableEq for Except

namespace MaitreD

/-- Meal enum from family.py. -/
inductive Meal
  | Vegan | Chicken | Allergy | Beef | KidFriendly
deriving DecidableEq

/-- Guest dataclass from family.py. -/
structure Guest where
  first_name : String
  last_name : String
  meal_choice : Meal
  allergies : String
  age : Nat
deriving DecidableEq

/-- Family dataclass from family.py.  Note: the dataclass has exactly the
fields below; in particular there is NO `part` field (the constructor call
`Family(..., part=part_idx)` in seating_chart.py therefore raises
`TypeError`).  `submission` (a datetime) is embedded as an abstract
ordering key. -/
structure Family where
  email : String
  phone : String
  address : String
  requests : String
  submission : Nat
  guests : List Guest
deriving DecidableEq

/-- `Family.size` property: `len(self.guests)`. -/
def Family.size (f : Family) : Nat := f.guests.length

/-- Default guest used to express Python's `guests[0]` access.  The source
raises `IndexError` on an empty guest list; the embedding's default is
never reached in the runs modelled here. -/
def dGuest : Guest := ⟨"", "", Meal.Chicken, "", 0⟩

/-- `Family.first_name` property: `self.guests[0].first_name`. -/
def Family.first_name (f : Family) : String := (f.guests.headD dGuest).first_name

/-- `Family.last_name` property: `self.guests[0].last_name`. -/
def Family.last_name (f : Family) : String := (f.guests.headD dGuest).last_name

/-- `Family.__eq__`: comparison by email only (family.py line 51-54). -/
def Family.beq (a b : Family) : Bool := a.email == b.email

/-- Python `x in container` for containers of `Family` (uses `__eq__`,
i.e. email comparison). -/
def famMem (x : Family) (l : List Family) : Bool := l.any fun y => Family.beq x y

/-- Python `set.add` for a set of families represented as an
insertion-ordered duplicate-free list. -/
def famSetAdd (l : List Family) (x : Family) : List Family :=
  if famMem x l then l else l ++ [x]

/-- Association-list lookup, embedding Python `dict.__getitem__` /
`dict.get`: first entry whose key compares equal wins (keys are unique in
a real dict, so "first" is exact). -/
def assocGet {κ α : Type} (eqb : κ → κ → Bool) : List (κ × α) → κ → Option α
  | [], _ => none
  | (k2, v) :: rest, k => if eqb k k2 then some v else assocGet eqb rest k

/-- Association-list update, embedding Python `dict.__setitem__`: an
existing key keeps its object and position, a fresh key is appended. -/
def assocSet {κ α : Type} (eqb : κ → κ → Bool) : List (κ × α) → κ → α → List (κ × α)
  | [], k, v => [(k, v)]
  | (k2, v2) :: rest, k, v =>
    if eqb k k2 then (k2, v) :: rest else (k2, v2) :: assocSet eqb rest k v

/-- Total size of a list of families: `sum(f.size for f in ...)`. -/
def sumSizes (l : List Family) : Nat := (l.map Family.size).sum

/-- A default family for Python's `cluster[0]` access (`IndexError` on an
empty list in the source; unreachable here because clusters are never
empty). -/
def dFam : Family := ⟨"", "", "", "", 0, []⟩

/-! ## 1. build_clusters (seating_chart.py lines 40-81) -/

/-- One undirected half-edge insertion:
`graph[a].add(b)` on the `defaultdict(set)` graph. -/
def graphAdd (g : List (Family × List Family)) (a b : Family) :
    List (Family × List Family) :=
  match assocGet Family.beq g a with
  | some s => assocSet Family.beq g a (famSetAdd s b)
  | none => g ++ [(a, [b])]

/-- Both half-edges for one request pair:
`graph[fam].add(other); graph[other].add(fam)`. -/
def addPair (g : List (Family × List Family)) (a b : Family) :
    List (Family × List Family) :=
  graphAdd (graphAdd g a b) b a

/-- The edge-building loop of `build_clusters`:
for fam in families: for other in requests_map.get(fam, []): add both
half-edges. -/
def buildGraph (families : List Family) (rmap : List (Family × List Family)) :
    List (Family × List Family) :=
  families.foldl
    (fun g fam =>
      ((assocGet Family.beq rmap fam).getD []).foldl
        (fun g other => addPair g fam other) g)
    []

/-- `graph[cur]` as a read (a missing key yields the empty adjacency set,
matching the `defaultdict`). -/
def adj (g : List (Family × List Family)) (x : Family) : List Family :=
  (assocGet Family.beq g x).getD []

/-- All adjacency-list entries of the graph, with multiplicity (used only
to bound the breadth-first traversal). -/
def adjPool (g : List (Family × List Family)) : List Family :=
  (g.map Prod.snd).flatten

/-- Number of adjacency-list entries not yet visited: the potential that
strictly decreases at every BFS iteration and certifies the fuel bound. -/
def unvis (g : List (Family × List Family)) (visited : List Family) : Nat :=
  (adjPool g).countP fun n => ! famMem n visited

/-- Symmetry of the request graph: every stored edge has its reverse
stored too (`build_clusters` always inserts both directions). -/
def graphSym (g : List (Family × List Family)) : Prop :=
  ∀ x y, y ∈ adj g x → famMem x (adj g y) = true

/-- The inner neighbor loop of the BFS:
`for neighbor in graph[cur]: if neighbor not in visited: visit it`.
`visited`, `cluster` and `queue` all receive the same appends. -/
def visitNeighbors : List Family → List Family → List Family → List Family →
    List Family × List Family × List Family
  | [], visited, cluster, queue => (visited, cluster, queue)
  | n :: rest, visited, cluster, queue =>
    if famMem n visited then visitNeighbors rest visited cluster queue
    else visitNeighbors rest (visited ++ [n]) (cluster ++ [n]) (queue ++ [n])

/-- The BFS `while queue:` loop.  The Python loop always terminates; the
fuel passed by `build_clusters` is proved sufficient below
(`bfs_spec`), so the fuel-exhaustion branch is unreachable. -/
def bfs (g : List (Family × List Family)) :
    Nat → List Family → List Family → List Family → List Family × List Family
  | 0, visited, cluster, _ => (visited, cluster)
  | _ + 1, visited, cluster, [] => (visited, cluster)
  | fuel + 1, visited, cluster, cur :: queue =>
    let s := visitNeighbors (adj g cur) visited cluster queue
    bfs g fuel s.1 s.2.1 s.2.2

/-- `build_clusters` (seating_chart.py lines 40-81): connected components
of the undirected request graph, discovered by BFS from each not yet
visited family in input order. -/
def build_clusters (families : List Family) (rmap : List (Family × List Family)) :
    List (List Family) :=
  let graph := buildGraph families rmap
  let fuel := (adjPool graph).length + 1
  (families.foldl
    (fun (st : List Family × List (List Family)) fam =>
      if famMem fam st.1 then st
      else
        let r := bfs graph fuel (st.1 ++ [fam]) [fam] [fam]
        (r.1, st.2 ++ [r.2]))
    ([], [])).2

/-! ## 2. assign_cluster_to_area (seating_chart.py lines 88-155) -/

/-- The value of Python's `extra` variable: `0` or `float("inf")`. -/
inductive Extra
  | fin (n : Nat)
  | inf
deriving DecidableEq

/-- The `<` comparison on `extra` values (`float` comparison with
infinity in the source). -/
def Extra.lt : Extra → Extra → Bool
  | .fin a, .fin b => a < b
  | .fin _, .inf => true
  | .inf, _ => false

/-- The `for area_idx, tables in areas.items():` loop of
`assign_cluster_to_area`; the accumulator is
`(best_area, best_extra, best_remaining)`, `none` when no area has been
examined yet. -/
def assignLoop (cs : Int) (ts : Nat) (area_used : List (Nat × Nat)) :
    List (Nat × List (List Family)) → Option (Nat × Extra × Int) →
    Option (Nat × Extra × Int)
  | [], best => best
  | (area_idx, tables) :: rest, best =>
    let used : Nat := (assocGet (· == ·) area_used area_idx).getD 0
    let remaining : Int := (tables.length : Int) * (ts : Int) - (used : Int)
    let extra : Extra := if cs ≤ remaining then .fin 0 else .inf
    match best with
    | none => assignLoop cs ts area_used rest (some (area_idx, extra, remaining))
    | some (bidx, bextra, brem) =>
      if Extra.lt extra bextra then
        assignLoop cs ts area_used rest (some (area_idx, extra, remaining))
      else if extra == bextra && brem < remaining then
        assignLoop cs ts area_used rest (some (area_idx, bextra, remaining))
      else
        assignLoop cs ts area_used rest (some (bidx, bextra, brem))

/-- `assign_cluster_to_area` (seating_chart.py lines 88-155).  The
`debug` printing is not modelled.  `math.ceil(cluster_size / table_size)`
is embedded as exact ceiling division (the source computes it through
float division, exact for realistic sizes); the source raises
`ZeroDivisionError` when `table_size = 0`, so theorems below assume
`0 < table_size`. -/
def assign_cluster_to_area (cluster : List Family)
    (areas : List (Nat × List (List Family))) (area_used : List (Nat × Nat))
    (table_size : Nat) : Nat :=
  let cluster_size : Int := (sumSizes cluster : Int)
  let best := assignLoop cluster_size table_size area_used areas none
  let new_area_idx := areas.length
  let extra_new : Extra := .fin ((sumSizes cluster + table_size - 1) / table_size)
  match best with
  | none => new_area_idx
  | some (bidx, bextra, _) =>
    if Extra.lt extra_new bextra then new_area_idx else bidx

/-! ## 3. place_cluster_into_area (seating_chart.py lines 162-226) -/

/-- Adjacency score of a table for a unit:
`sum(1 for other in table if other in requested)`. -/
def scoreOf (requested : List Family) (table : List Family) : Nat :=
  (table.filter fun other => famMem other requested).length

/-- The first placement loop (`for i, table in enumerate(area_tables)`):
skip tables without capacity, keep the strictly best score.  `pairs` is
`area_tables` with indices (`enumerate`), the accumulator is
`(best_table, best_score)` starting at `(None, -1)`. -/
def bestTableLoop (table_size famSize : Nat) (requested : List Family)
    (used : List Nat) :
    List (Nat × List Family) → Option Nat × Int → Option Nat × Int
  | [], st => st
  | (i, table) :: rest, (bt, bs) =>
    let remaining : Int := (table_size : Int) - (used.getD i 0 : Int)
    if remaining < (famSize : Int) then
      bestTableLoop table_size famSize requested used rest (bt, bs)
    else
      let score : Int := (scoreOf requested table : Nat)
      if bs < score then bestTableLoop table_size famSize requested used rest (some i, score)
      else bestTableLoop table_size famSize requested used rest (bt, bs)

/-- The fallback loop (`for i, used in enumerate(table_used)`): first
table whose used seats plus the unit size fit the capacity. -/
def firstFit (famSize table_size : Nat) : List Nat → Nat → Option Nat
  | [], _ => none
  | u :: rest, i =>
    if u + famSize ≤ table_size then some i else firstFit famSize table_size rest (i + 1)

/-- The body of the `for fam in cluster:` loop of
`place_cluster_into_area`; the state is `(area_tables, table_used)`. -/
def placeFam (table_size : Nat) (rmap : List (Family × List Family))
    (st : List (List Family) × List Nat) (fam : Family) :
    List (List Family) × List Nat :=
  let tables := st.1
  let used := st.2
  let requested := (assocGet Family.beq rmap fam).getD []
  match bestTableLoop table_size fam.size requested used tables.enum (none, -1) with
  | (some i, _) =>
    (tables.set i (tables.getD i [] ++ [fam]), used.set i (used.getD i 0 + fam.size))
  | (none, _) =>
    match firstFit fam.size table_size used 0 with
    | some i =>
      (tables.set i (tables.getD i [] ++ [fam]), used.set i (used.getD i 0 + fam.size))
    | none => (tables ++ [[fam]], used ++ [fam.size])

/-- `place_cluster_into_area` (seating_chart.py lines 162-226).  The
source mutates `area_tables` in place; the embedding returns the new
table list.  `table_used` is initialised from the current tables exactly
as in the source.  Note `set(requests_map.get(fam, []))` is used only
through membership tests, so the set is embedded as the underlying
list. -/
def place_cluster_into_area (cluster : List Family)
    (area_tables : List (List Family)) (table_size : Nat)
    (rmap : List (Family × List Family)) : List (List Family) :=
  (cluster.foldl (placeFam table_size rmap)
    (area_tables, area_tables.map sumSizes)).1

/-! ## split_oversized_families (seating_chart.py lines 229-279) -/

/-- `split_oversized_families`.  A family at or below `table_size` passes
through unchanged.  For an oversized family the source executes
`Family(email=..., phone=..., address=..., requests=..., submission=...,
guests=..., part=part_idx)`, but the `Family` dataclass (family.py) has
no `part` field, so that constructor call raises `TypeError`; the
embedding returns the corresponding error.  On success the (unchanged)
request map is returned alongside the new cluster. -/
def split_oversized_families (cluster : List Family) (table_size : Nat)
    (rmap : List (Family × List Family)) :
    Except String (List Family × List (Family × List Family)) :=
  match cluster with
  | [] => .ok ([], rmap)
  | fam :: rest =>
    if fam.size ≤ table_size then
      match split_oversized_families rest table_size rmap with
      | .ok (nc, rm) => .ok (fam :: nc, rm)
      | .error e => .error e
    else .error "TypeError: Family.init got an unexpected keyword argument part"

/-! ## 4. generate_conflict_report (seating_chart.py lines 285-315) -/

/-- The location lookup built by `generate_conflict_report`:
`location[fam] = (area_idx, table_idx)` for every seated family, in area
order, table order, seat order (a later assignment overwrites an earlier
one, as in a dict). -/
def buildLocation (areas : List (Nat × List (List Family))) :
    List (Family × (Nat × Nat)) :=
  areas.foldl
    (fun loc p =>
      p.2.enum.foldl
        (fun loc tq =>
          tq.2.foldl (fun loc fam => assocSet Family.beq loc fam (p.1, tq.1)) loc)
        loc)
    []

/-- Conflicts contributed by a single requested family `other` of
requester `fam` whose area is `fam_area` (`None` when the requester is
unseated, exactly as `location.get(fam, (None, None))[0]`). -/
def conflictFor (location : List (Family × (Nat × Nat))) (fam : Family)
    (fam_area : Option Nat) (other : Family) :
    Option (Family × Family × String) :=
  match assocGet Family.beq location other with
  | none => some (fam, other, "Requested family not found")
  | some loc2 =>
    if (some loc2.1 : Option Nat) ≠ fam_area then
      some (fam, other, "Not seated in same area")
    else none

/-- `generate_conflict_report` (seating_chart.py lines 285-315). -/
def generate_conflict_report (areas : List (Nat × List (List Family)))
    (rmap : List (Family × List Family)) : List (Family × Family × String) :=
  let location := buildLocation areas
  rmap.foldl
    (fun conflicts pr =>
      let fam_area : Option Nat := (assocGet Family.beq location pr.1).map Prod.fst
      pr.2.foldl
        (fun conflicts other =>
          conflicts ++ (conflictFor location pr.1 fam_area other).toList)
        conflicts)
    []

/-! ## 5. visualize_areas (seating_chart.py lines 322-335) -/

/-- `visualize_areas`: the human-readable layout dump. -/
def visualize_areas (areas : List (Nat × List (List Family))) : String :=
  let output := areas.foldl
    (fun out p =>
      let out := out ++ ["\n==================== AREA " ++ toString p.1 ++
        " ===================="]
      p.2.enum.foldl
        (fun out tq =>
          let out := out ++ ["  Table " ++ toString tq.1 ++ ":"]
          tq.2.foldl
            (fun out fam =>
              out ++ ["    - " ++ fam.first_name ++ " " ++ fam.last_name ++
                " (size " ++ toString fam.size ++ ")"])
            out)
        out)
    []
  String.intercalate "\n" output

/-! ## 6. create_area_aware_seating (seating_chart.py lines 360-418) -/

/-- Python `families_sorted.index(c[0])` (first index whose element
compares equal; the source raises `ValueError` when absent, which cannot
happen for clusters produced by `build_clusters` — the fallback value
`length` of `findIdx` is unreachable). -/
def listIndex (l : List Family) (x : Family) : Nat :=
  l.findIdx fun y => Family.beq y x

/-- Stable insertion of one element into a key-sorted list (an element is
placed before the first element with a key not smaller than its own). -/
def insertByKey {α : Type} (key : α → Nat) (x : α) : List α → List α
  | [] => [x]
  | y :: ys => if key x ≤ key y then x :: y :: ys else y :: insertByKey key x ys

/-- Stable sort by key, embedding Python's stable `list.sort(key=...)`
(the output of a stable sort is uniquely determined by the key order, so
any stable algorithm is a faithful embedding). -/
def sortByKey {α : Type} (key : α → Nat) : List α → List α
  | [] => []
  | x :: xs => insertByKey key x (sortByKey key xs)

/-- One iteration of the `for cluster in clusters:` loop of
`create_area_aware_seating`: choose the area (the `defaultdict` access
`areas[area_idx]` inserting an empty table list for a fresh area is
embedded by the `getD []` / `assocSet` pair, which appends the fresh key
at the end exactly where the `defaultdict` inserts it), place the
cluster, then add the cluster size to the area's used-seat counter. -/
def seatCluster (rmap : List (Family × List Family)) (table_size : Nat)
    (st : List (Nat × List (List Family)) × List (Nat × Nat))
    (cluster : List Family) :
    List (Nat × List (List Family)) × List (Nat × Nat) :=
  let area_idx := assign_cluster_to_area cluster st.1 st.2 table_size
  let tables0 := (assocGet (· == ·) st.1 area_idx).getD []
  let newTables := place_cluster_into_area cluster tables0 table_size rmap
  let areas := assocSet (· == ·) st.1 area_idx newTables
  let area_used := assocSet (· == ·) st.2 area_idx
    (((assocGet (· == ·) st.2 area_idx).getD 0) + sumSizes cluster)
  (areas, area_used)

/-- `create_area_aware_seating` (seating_chart.py lines 360-418): build
clusters, sort them by the position of their first member, then for each
cluster choose an area, place the cluster into that area's tables and
update the area's used-seat counter; finally produce the conflict report
and the layout dump.  Console output is not modelled.  Note the pipeline
never calls `split_oversized_families`. -/
def create_area_aware_seating (families_sorted : List Family)
    (rmap : List (Family × List Family)) (table_size : Nat) :
    List (Nat × List (List Family)) × List (Family × Family × String) × String :=
  let clusters := build_clusters families_sorted rmap
  let clusters := sortByKey (fun c => listIndex families_sorted (c.headD dFam)) clusters
  let st := clusters.foldl (seatCluster rmap table_size) ([], [])
  let conflicts := generate_conflict_report st.1 rmap
  let layout := visualize_areas st.1
  (st.1, conflicts, layout)

/-- All seated families of a layout, in area order, table order, seat
order. -/
def joinAreas (areas : List (Nat × List (List Family))) : List Family :=
  (areas.map fun p => p.2.flatten).flatten

/-! ## extract_families_from_request (seating_requests.py lines 6-139) -/

/-- The characters of Python's `string.punctuation`
(codes 33-47, 58-64, 91-96, 123-126). -/
def pyPunctuation : List Char :=
  ([33, 34, 35, 36, 37, 38, 39, 40, 41, 42, 43, 44, 45, 46, 47,
    58, 59, 60, 61, 62, 63, 64, 91, 92, 93, 94, 95, 96,
    123, 124, 125, 126] : List Nat).map Char.ofNat

/-- `request_string.lower()` (ASCII lowering suffices for the modelled
inputs). -/
def pyLower (s : String) : String := ⟨s.data.map Char.toLower⟩

/-- `req.translate(str.maketrans("", "", string.punctuation))`: delete
every punctuation character. -/
def stripPunctuation (s : String) : String :=
  ⟨s.data.filter fun c => ¬ pyPunctuation.contains c⟩

/-- Helper for `pySplit`: accumulate the current token (reversed) while
scanning the character list. -/
def pyTokens : List Char → List Char → List String
  | [], cur => if cur = [] then [] else [String.mk cur.reverse]
  | c :: rest, cur =>
    if c.isWhitespace then
      if cur = [] then pyTokens rest []
      else String.mk cur.reverse :: pyTokens rest []
    else pyTokens rest (c :: cur)

/-- `req.split()`: split on whitespace runs, dropping empty pieces. -/
def pySplit (s : String) : List String := pyTokens s.data []

/-- Python `needle in haystack` on strings (substring containment). -/
def strContains (hay needle : String) : Bool :=
  hay.data.tails.any fun t => needle.data.isPrefixOf t

/-- `set.add` for the `detected_last_names` set of strings (insertion
order models the implementation-defined Python set order; the concrete
runs proved below involve at most one element). -/
def strSetAdd (l : List String) (x : String) : List String :=
  if l.contains x then l else l ++ [x]

/-- Step 1 of `extract_families_from_request`: detect last names by
(1) raw substring containment in the whole normalized request,
(2) exact token match, (3) fuzzy token match.  The `difflib`-based fuzzy
matcher is an external library call, abstracted as the `fuzzyMatch`
parameter (`fun _ _ => false` models matching with no fuzzy hits). -/
def detectLastNames (keys : List String) (req : String) (tokens : List String)
    (fuzzyMatch : String → List String → Bool) : List String :=
  keys.foldl
    (fun detected last =>
      let last_lower := pyLower last
      if strContains req last_lower then strSetAdd detected last
      else if tokens.contains last_lower then strSetAdd detected last
      else if fuzzyMatch last_lower tokens then strSetAdd detected last
      else detected)
    []

/-- Final order-preserving deduplication of the matched families
(`seen` set with `__eq__`, i.e. email comparison). -/
def dedupFamilies (l : List Family) : List Family :=
  (l.foldl (fun st fam => if famMem fam st.1 then st else (st.1 ++ [fam], st.2 ++ [fam]))
    (([], []) : List Family × List Family)).2

/-- `extract_families_from_request` (seating_requests.py lines 6-139).
`last_to_firstnames` and `last_to_families` are the two directory dicts;
a detected last name absent from `last_to_families` would raise
`KeyError` in the source (consistent directories always contain it, and
the `getD []` default is unreachable in the runs proved below). -/
def extract_families_from_request (request_string : String)
    (last_to_firstnames : List (String × List String))
    (last_to_families : List (String × List Family))
    (fuzzyMatch : String → List String → Bool) : List Family :=
  let req := stripPunctuation (pyLower request_string)
  let tokens := pySplit req
  let detected := detectLastNames (last_to_firstnames.map Prod.fst) req tokens fuzzyMatch
  let matched := detected.foldl
    (fun matched last =>
      let families := (assocGet (· == ·) last_to_families last).getD []
      if families.length == 1 then matched ++ [families.headD dFam]
      else
        let possible_firsts := (assocGet (· == ·) last_to_firstnames last).getD []
        let found_firsts := possible_firsts.filter fun first =>
          tokens.contains (pyLower first)
        if found_firsts.length == 1 then
          let first := pyLower (found_firsts.headD "")
          match families.find? (fun fam => pyLower fam.first_name == first) with
          | some fam => matched ++ [fam]
          | none => matched
        else if 1 < found_firsts.length then
          matched ++ (families.filter fun fam => found_firsts.contains fam.first_name)
        else matched ++ families)
    []
  dedupFamilies matched

/-! ## Concrete inputs used by the evaluation theorems -/

/-- A family with `n` identical guests (as the repository's test helper
`make_family` builds them). -/
def mkFam (email first last : String) (n : Nat) : Family :=
  ⟨email, "", "", "", 0, List.replicate n ⟨first, last, Meal.Chicken, "", 30⟩⟩

/-- The size-15 unit of spec Scenario B. -/
def big15 : Family := mkFam "big@example.com" "Big" "Family" 15

/-- A singleton cluster of size 3 (for the area-assignment tie-break). -/
def fThree : Family := mkFam "f3@example.com" "F" "Three" 3

/-- The `Friend` unit of spec Scenario D. -/
def friendFam : Family := mkFam "damian.friend" "Damian" "Friend" 1

/-- Two seated families used by the conflict-report evaluations. -/
def aFam : Family := mkFam "a@example.com" "A" "One" 3

/-- Second seated family for the conflict-report evaluations. -/
def bFam : Family := mkFam "b@example.com" "B" "Two" 3

/-- Stand-in for part 0 of an oversized unit: same identity key as
`partOne`, ten guests. -/
def partZero : Family := mkFam "big@example.com" "Big" "Family" 10

/-- Stand-in for part 1 of the same oversized unit: same identity key as
`partZero`, five guests. -/
def partOne : Family := mkFam "big@example.com" "Big" "Family" 5

/-- Remaining capacity of one `areas` entry, exactly as
`assign_cluster_to_area` computes it:
`len(tables) * table_size - area_used.get(area_idx, 0)`. -/
def entryRemaining (area_used : List (Nat × Nat)) (table_size : Nat)
    (p : Nat × List (List Family)) : Int :=
  (p.2.length : Int) * (table_size : Int) -
    ((assocGet (· == ·) area_used p.1).getD 0 : Int)

/-- The `extra` value `assign_cluster_to_area` computes for one `areas`
entry: `0` when the remaining capacity fits the cluster, infinite
otherwise. -/
def entryExtra (area_used : List (Nat × Nat)) (table_size : Nat) (cs : Int)
    (p : Nat × List (List Family)) : Extra :=
  if cs ≤ entryRemaining area_used table_size p then .fin 0 else .inf

/-- The `(extra, remaining)` pair of one `areas` entry. -/
def entryVal (area_used : List (Nat × Nat)) (table_size : Nat) (cs : Int)
    (p : Nat × List (List Family)) : Extra × Int :=
  (entryExtra area_used table_size cs p, entryRemaining area_used table_size p)

/-- The strict preference order of the `assign_cluster_to_area` loop: a
candidate value displaces the current best exactly when its `extra` is
strictly smaller, or the `extra` ties and its `remaining` is strictly
larger. -/
def valBetter (a b : Extra × Int) : Prop :=
  Extra.lt a.1 b.1 = true ∨ (a.1 = b.1 ∧ b.2 < a.2)

/-! # Theorems -/

/-! ## Basic facts about the embedded Python equality and containers -/

theorem beq_email {a b : Family} : Family.beq a b = true ↔ a.email = b.email := by
  simp [Family.beq]

theorem beq_refl (a : Family) : Family.beq a a = true := beq_email.2 rfl

theorem beq_symm {a b : Family} (h : Family.beq a b = true) : Family.beq b a = true :=
  beq_email.2 (beq_email.1 h).symm

theorem beq_trans {a b c : Family} (h1 : Family.beq a b = true)
    (h2 : Family.beq b c = true) : Family.beq a c = true :=
  beq_email.2 ((beq_email.1 h1).trans (beq_email.1 h2))

theorem famMem_iff {x : Family} {l : List Family} :
    famMem x l = true ↔ ∃ y ∈ l, Family.beq x y = true := by
  simp [famMem, List.any_eq_true]

theorem famMem_append {x : Family} {a b : List Family} :
    famMem x (a ++ b) = (famMem x a || famMem x b) := by
  simp [famMem, List.any_append]

theorem famMem_append_left {x : Family} {a : List Family} (b : List Family)
    (h : famMem x a = true) : famMem x (a ++ b) = true := by
  simp [famMem_append, h]

theorem famMem_append_right {x : Family} (a : List Family) {b : List Family}
    (h : famMem x b = true) : famMem x (a ++ b) = true := by
  simp [famMem_append, h]

theorem famMem_of_mem {x : Family} {l : List Family} (h : x ∈ l) :
    famMem x l = true :=
  famMem_iff.2 ⟨x, h, beq_refl x⟩

theorem beq_congr_left {a b : Family} (c : Family) (h : Family.beq a b = true) :
    Family.beq a c = Family.beq b c := by
  rw [Bool.eq_iff_iff]
  exact ⟨fun hx => beq_trans (beq_symm h) hx, fun hx => beq_trans h hx⟩

theorem famMem_congr {a b : Family} (l : List Family)
    (h : Family.beq a b = true) : famMem a l = famMem b l := by
  rw [Bool.eq_iff_iff, famMem_iff, famMem_iff]
  constructor
  · rintro ⟨y, hy, hb⟩; exact ⟨y, hy, beq_trans (beq_symm h) hb⟩
  · rintro ⟨y, hy, hb⟩; exact ⟨y, hy, beq_trans h hb⟩

theorem assocGet_fam_congr {α : Type} {m : List (Family × α)} {a b : Family}
    (h : Family.beq a b = true) :
    assocGet Family.beq m a = assocGet Family.beq m b := by
  induction m with
  | nil => rfl
  | cons p rest ih =>
    simp only [assocGet]
    rw [beq_congr_left p.1 h, ih]

theorem famMem_famSetAdd_self (l : List Family) (x : Family) :
    famMem x (famSetAdd l x) = true := by
  unfold famSetAdd
  by_cases h : famMem x l = true
  · simp [h]
  · simp only [h]
    simp only [Bool.false_eq_true, if_false]
    exact famMem_append_right l (famMem_of_mem (List.mem_singleton.2 rfl))

theorem famMem_famSetAdd_mono {l : List Family} {x : Family} (y : Family)
    (h : famMem x l = true) : famMem x (famSetAdd l y) = true := by
  unfold famSetAdd
  by_cases hy : famMem y l = true
  · simpa [hy]
  · simp only [hy, Bool.false_eq_true, if_false]
    exact famMem_append_left _ h

theorem mem_famSetAdd {l : List Family} {x y : Family}
    (h : x ∈ famSetAdd l y) : x ∈ l ∨ x = y := by
  unfold famSetAdd at h
  by_cases hy : famMem y l = true
  · simp [hy] at h; exact Or.inl h
  · simp only [hy, Bool.false_eq_true, if_false] at h
    rcases List.mem_append.1 h with h | h
    · exact Or.inl h
    · exact Or.inr (List.mem_singleton.1 h)

/-! ## Evaluation theorems for the claims settled by a concrete run -/

/-- C1: the claim says every table of every `create_area_aware_seating`
run (unit sizes ≥ 1, capacity ≥ 1) holds at most `capacity` seats.  The
pipeline never calls `split_oversized_families`, so a single unit of size
15 at capacity 10 is seated whole at one fresh table of total seated size
15 > 10, contradicting the claim (and the assumption stated in
`place_cluster_into_area`'s own docstring that oversized families were
already split). -/
theorem c1_table_capacity_violated_by_unsplit_unit :
    (create_area_aware_seating [big15] [] 10).1 = [(0, [[big15]])] ∧
    sumSizes [big15] = 15 ∧ ¬ sumSizes [big15] ≤ 10 := by decide

/-- C6: the claim says that with fuzzy matching off the resolver never
resolves a last name occurring only inside a longer unrelated word, and
in particular Scenario D must not resolve the `Friend` unit.  The code's
first detection branch tests raw substring containment
(`last_lower in req`), so "friend" matches inside "friends" and the
`Friend` unit IS returned — contradicting the claim and the repository's
own test `test_plural_friends_does_not_match_friend_last_name` (which
expects `[]`).  The fuzzy matcher is instantiated with a predicate that
never matches (fuzzy off); the substring branch fires before fuzzy
matching is ever consulted. -/
theorem c6_substring_branch_resolves_friend :
    extract_families_from_request "Please seat us with our friends the Smiths."
      [("Friend", ["Damian"])] [("Friend", [friendFam])] (fun _ _ => false)
      = [friendFam] := by decide

/-- C7: the claim says `split_oversized_families` replaces a unit of size
15 (capacity 10) by parts of sizes 10 and 5.  The source constructs each
part with `Family(..., part=part_idx)`, but the `Family` dataclass has no
`part` field, so the call raises `TypeError` instead — contradicting the
claim and the repository's own test `test_oversized_family` (which
expects sizes `[10, 5]`). -/
theorem c7_split_oversized_raises_type_error :
    split_oversized_families [big15] 10 [] =
      .error "TypeError: Family.init got an unexpected keyword argument part" ∧
    Family.size big15 = 15 := by decide

/-- C8: the claim says unit equality (and the hash key) is the pair
(identity key, part index), making two parts of one original unit
distinct identities.  `Family.__eq__` compares the email alone (and the
class has no part field at all, so true parts cannot even be
constructed): two stand-in part values sharing the email compare equal
despite being different values of different sizes — contradicting the
claim and the repository's own tests (`test_not_equal_when_part_differs`,
`test_set_treats_split_families_as_distinct`). -/
theorem c8_equality_is_email_only :
    Family.beq partZero partOne = true ∧ partZero ≠ partOne ∧
    Family.size partZero ≠ Family.size partOne := by decide

/-- C3 counterexample: two areas are zero-extra candidates for a cluster
of size 3 at capacity 10 — area 0 with remaining capacity 10, area 1
with remaining capacity 5.  The claim (tightest fit) requires area 1;
`assign_cluster_to_area` returns area 0, the loosest fit. -/
theorem c3_counterexample_tightest_fit_fails :
    assign_cluster_to_area [fThree] [(0, [[]]), (1, [[]])] [(0, 0), (1, 5)] 10 = 0 ∧
    entryRemaining [(0, 0), (1, 5)] 10 (0, [[]]) = 10 ∧
    entryRemaining [(0, 0), (1, 5)] 10 (1, [[]]) = 5 ∧
    sumSizes [fThree] = 3 ∧ (0 : Nat) ≠ 1 := by decide

/-- C9 counterexample: the code's conflict reasons are capitalized
(`"Requested family not found"`, `"Not seated in same area"`), not the
lowercase strings the claim states; at two concrete layouts the emitted
triples carry the capitalized reasons. -/
theorem c9_counterexample_reason_strings_capitalized :
    generate_conflict_report [(0, [[aFam]]), (1, [[bFam]])] [(aFam, [bFam])]
      = [(aFam, bFam, "Not seated in same area")] ∧
    generate_conflict_report [(0, [[aFam]])] [(aFam, [bFam])]
      = [(aFam, bFam, "Requested family not found")] ∧
    "Not seated in same area" ≠ "not seated in same area" ∧
    "Requested family not found" ≠ "requested family not found" := by decide

/-! ## Conservation of seated units (machinery for C2 and C10) -/

theorem flatten_set_append (x : Family) (tables : List (List Family)) :
    ∀ i, i < tables.length →
      List.Perm (tables.set i (tables.getD i [] ++ [x])).flatten (tables.flatten ++ [x]) := by
  induction tables with
  | nil => intro i h; simp at h
  | cons t rest ih =>
    intro i h
    cases i with
    | zero =>
      simp only [List.getD_cons_zero, List.set_cons_zero, List.flatten_cons]
      have h1 : (t ++ [x]) ++ rest.flatten = t ++ ([x] ++ rest.flatten) :=
        List.append_assoc t [x] rest.flatten
      rw [h1]
      have h2 : List.Perm (t ++ ([x] ++ rest.flatten)) (t ++ (rest.flatten ++ [x])) :=
        List.Perm.append_left t List.perm_append_comm
      have h3 : t ++ (rest.flatten ++ [x]) = (t ++ rest.flatten) ++ [x] :=
        (List.append_assoc t rest.flatten [x]).symm
      rw [h3] at h2
      exact h2
    | succ i =>
      simp only [List.getD_cons_succ, List.set_cons_succ, List.flatten_cons]
      have hi : i < rest.length := by simpa using Nat.lt_of_succ_lt_succ h
      have h2 := List.Perm.append_left t (ih i hi)
      have h3 : t ++ (rest.flatten ++ [x]) = (t ++ rest.flatten) ++ [x] :=
        (List.append_assoc t rest.flatten [x]).symm
      rw [h3] at h2
      exact h2

theorem bestTableLoop_some {ts fs : Nat} {req : List Family} {used : List Nat} :
    ∀ (pairs : List (Nat × List Family)) (bt : Option Nat) (bs : Int) {i : Nat} {s : Int},
      bestTableLoop ts fs req used pairs (bt, bs) = (some i, s) →
      bt = some i ∨ ∃ t, (i, t) ∈ pairs := by
  intro pairs
  induction pairs with
  | nil =>
    intro bt bs i s h
    simp only [bestTableLoop] at h
    exact Or.inl (congrArg Prod.fst h)
  | cons p rest ih =>
    intro bt bs i s h
    obtain ⟨j, table⟩ := p
    simp only [bestTableLoop] at h
    split at h
    · rcases ih _ _ h with h1 | ⟨t, ht⟩
      · exact Or.inl h1
      · exact Or.inr ⟨t, List.mem_cons_of_mem _ ht⟩
    · split at h
      · rcases ih _ _ h with h1 | ⟨t, ht⟩
        · cases h1; exact Or.inr ⟨table, List.mem_cons_self _ _⟩
        · exact Or.inr ⟨t, List.mem_cons_of_mem _ ht⟩
      · rcases ih _ _ h with h1 | ⟨t, ht⟩
        · exact Or.inl h1
        · exact Or.inr ⟨t, List.mem_cons_of_mem _ ht⟩

theorem firstFit_some {fs ts : Nat} :
    ∀ (used : List Nat) (n : Nat) {i : Nat},
      firstFit fs ts used n = some i → n ≤ i ∧ i < n + used.length := by
  intro used
  induction used with
  | nil => intro n i h; simp [firstFit] at h
  | cons u rest ih =>
    intro n i h
    simp only [firstFit] at h
    split at h
    · cases h; simp only [List.length_cons]; omega
    · have := ih (n + 1) h
      constructor <;> [omega; (simp only [List.length_cons]; omega)]

theorem mem_enum_lt {α : Type} {tables : List α} {i : Nat} {t : α}
    (h : (i, t) ∈ tables.enum) : i < tables.length := by
  rw [List.mk_mem_enum_iff_getElem?] at h
  exact (List.getElem?_eq_some.1 h).1

theorem placeFam_flatten (ts : Nat) (rmap : List (Family × List Family))
    (tables : List (List Family)) (used : List Nat) (fam : Family)
    (hlen : used.length = tables.length) :
    List.Perm (placeFam ts rmap (tables, used) fam).1.flatten (tables.flatten ++ [fam]) ∧
    (placeFam ts rmap (tables, used) fam).2.length =
      (placeFam ts rmap (tables, used) fam).1.length := by
  unfold placeFam
  simp only
  split
  next i s heq =>
    have hi : i < tables.length := by
      rcases bestTableLoop_some tables.enum none (-1) heq with h1 | ⟨t, ht⟩
      · cases h1
      · exact mem_enum_lt ht
    constructor
    · exact flatten_set_append fam tables i hi
    · simp [hlen]
  next s heq =>
    split
    next i hff =>
      have hi : i < tables.length := by
        have := firstFit_some used 0 hff
        omega
      constructor
      · exact flatten_set_append fam tables i hi
      · simp [hlen]
    next hff =>
      constructor
      · simp
      · simp [hlen]

theorem place_fold_flatten (ts : Nat) (rmap : List (Family × List Family)) :
    ∀ (cluster : List Family) (tables : List (List Family)) (used : List Nat),
      used.length = tables.length →
      List.Perm (cluster.foldl (placeFam ts rmap) (tables, used)).1.flatten
        (tables.flatten ++ cluster) := by
  intro cluster
  induction cluster with
  | nil => intro tables used _; simp
  | cons fam rest ih =>
    intro tables used hlen
    simp only [List.foldl_cons]
    obtain ⟨hperm, hl⟩ := placeFam_flatten ts rmap tables used fam hlen
    have heta : placeFam ts rmap (tables, used) fam =
        ((placeFam ts rmap (tables, used) fam).1,
         (placeFam ts rmap (tables, used) fam).2) := rfl
    rw [heta]
    have ihr := ih (placeFam ts rmap (tables, used) fam).1
      (placeFam ts rmap (tables, used) fam).2 hl
    have hstep := List.Perm.append_right rest hperm
    have hre : (tables.flatten ++ [fam]) ++ rest = tables.flatten ++ (fam :: rest) := by
      rw [List.append_assoc, List.singleton_append]
    rw [hre] at hstep
    exact ihr.trans hstep

theorem place_cluster_flatten (cluster : List Family)
    (tables : List (List Family)) (ts : Nat) (rmap : List (Family × List Family)) :
    List.Perm (place_cluster_into_area cluster tables ts rmap).flatten
      (tables.flatten ++ cluster) := by
  unfold place_cluster_into_area
  exact place_fold_flatten ts rmap cluster tables (tables.map sumSizes)
    (List.length_map tables sumSizes)

theorem joinAreas_cons (k : Nat) (v : List (List Family))
    (rest : List (Nat × List (List Family))) :
    joinAreas ((k, v) :: rest) = v.flatten ++ joinAreas rest := by
  simp [joinAreas]

theorem joinAreas_assocSet_found (k : Nat) (v t0 : List (List Family)) :
    ∀ (areas : List (Nat × List (List Family))),
      assocGet (· == ·) areas k = some t0 →
      ∃ pre post, joinAreas areas = pre ++ (t0.flatten ++ post) ∧
        joinAreas (assocSet (· == ·) areas k v) = pre ++ (v.flatten ++ post) := by
  intro areas
  induction areas with
  | nil => intro h; simp [assocGet] at h
  | cons p rest ih =>
    intro h
    obtain ⟨k2, v2⟩ := p
    simp only [assocGet] at h
    by_cases hk : (k == k2) = true
    · simp only [hk, if_true] at h
      cases h
      refine ⟨[], joinAreas rest, ?_, ?_⟩
      · simp [joinAreas_cons]
      · simp only [assocSet, hk, if_true]
        simp [joinAreas_cons]
    · simp only [hk, Bool.false_eq_true, if_false] at h
      obtain ⟨pre, post, h1, h2⟩ := ih h
      refine ⟨v2.flatten ++ pre, post, ?_, ?_⟩
      · rw [joinAreas_cons, h1, List.append_assoc]
      · simp only [assocSet, hk, Bool.false_eq_true, if_false]
        rw [joinAreas_cons, h2, List.append_assoc]

theorem joinAreas_assocSet_fresh (k : Nat) (v : List (List Family)) :
    ∀ (areas : List (Nat × List (List Family))),
      assocGet (· == ·) areas k = none →
      joinAreas (assocSet (· == ·) areas k v) = joinAreas areas ++ v.flatten := by
  intro areas
  induction areas with
  | nil => intro _; simp [assocSet, joinAreas]
  | cons p rest ih =>
    intro h
    obtain ⟨k2, v2⟩ := p
    simp only [assocGet] at h
    by_cases hk : (k == k2) = true
    · simp [hk] at h
    · simp only [hk, Bool.false_eq_true, if_false] at h
      simp only [assocSet, hk, Bool.false_eq_true, if_false]
      rw [joinAreas_cons, joinAreas_cons, ih h, List.append_assoc]

theorem seatCluster_flatten (rmap : List (Family × List Family)) (ts : Nat)
    (st : List (Nat × List (List Family)) × List (Nat × Nat))
    (cluster : List Family) :
    List.Perm (joinAreas (seatCluster rmap ts st cluster).1) (joinAreas st.1 ++ cluster) := by
  unfold seatCluster
  simp only
  cases hget : assocGet (· == ·) st.1 (assign_cluster_to_area cluster st.1 st.2 ts) with
  | none =>
    simp only [Option.getD_none]
    rw [joinAreas_assocSet_fresh _ _ st.1 hget]
    have hplace := place_cluster_flatten cluster [] ts rmap
    simp only [List.flatten_nil, List.nil_append] at hplace
    exact List.Perm.append_left _ hplace
  | some t0 =>
    simp only [Option.getD_some]
    obtain ⟨pre, post, h1, h2⟩ := joinAreas_assocSet_found
      (assign_cluster_to_area cluster st.1 st.2 ts)
      (place_cluster_into_area cluster t0 ts rmap) t0 st.1 hget
    rw [h2, h1]
    have hplace := place_cluster_flatten cluster t0 ts rmap
    have step1 : List.Perm
        (pre ++ ((place_cluster_into_area cluster t0 ts rmap).flatten ++ post))
        (pre ++ ((t0.flatten ++ cluster) ++ post)) :=
      List.Perm.append_left pre (List.Perm.append_right post hplace)
    have step2 : List.Perm (pre ++ ((t0.flatten ++ cluster) ++ post))
        (pre ++ (t0.flatten ++ (post ++ cluster))) := by
      refine List.Perm.append_left pre ?_
      rw [List.append_assoc]
      exact List.Perm.append_left t0.flatten List.perm_append_comm
    have step3 : pre ++ (t0.flatten ++ (post ++ cluster)) =
        (pre ++ (t0.flatten ++ post)) ++ cluster := by
      simp [List.append_assoc]
    exact (step1.trans step2).trans (step3 ▸ List.Perm.refl _)

theorem seatFold_flatten (rmap : List (Family × List Family)) (ts : Nat) :
    ∀ (clusters : List (List Family))
      (st : List (Nat × List (List Family)) × List (Nat × Nat)),
      List.Perm (joinAreas ((clusters.foldl (seatCluster rmap ts) st).1))
        (joinAreas st.1 ++ clusters.flatten) := by
  intro clusters
  induction clusters with
  | nil => intro st; simp
  | cons c cs ih =>
    intro st
    simp only [List.foldl_cons, List.flatten_cons]
    have ihr := ih (seatCluster rmap ts st c)
    have hstep := List.Perm.append_right cs.flatten (seatCluster_flatten rmap ts st c)
    have hre : (joinAreas st.1 ++ c) ++ cs.flatten = joinAreas st.1 ++ (c ++ cs.flatten) :=
      List.append_assoc _ _ _
    rw [hre] at hstep
    exact ihr.trans hstep

theorem insertByKey_perm {α : Type} (key : α → Nat) (x : α) :
    ∀ l : List α, List.Perm (insertByKey key x l) (x :: l) := by
  intro l
  induction l with
  | nil => simp [insertByKey]
  | cons y ys ih =>
    simp only [insertByKey]
    split
    · exact List.Perm.refl _
    · exact (List.Perm.cons y ih).trans (List.Perm.swap x y ys)

theorem sortByKey_perm {α : Type} (key : α → Nat) :
    ∀ l : List α, List.Perm (sortByKey key l) l := by
  intro l
  induction l with
  | nil => exact List.Perm.refl _
  | cons x xs ih =>
    exact (insertByKey_perm key x (sortByKey key xs)).trans (List.Perm.cons x ih)

/-- Helper shared by C2 and C10: the seated units of a pipeline run are a
permutation of the concatenation of the built clusters. -/
theorem seated_perm_clusters (families : List Family)
    (rmap : List (Family × List Family)) (table_size : Nat) :
    List.Perm (joinAreas (create_area_aware_seating families rmap table_size).1)
      ((build_clusters families rmap).flatten) := by
  unfold create_area_aware_seating
  simp only
  have h1 := seatFold_flatten rmap table_size
    (sortByKey (fun c => listIndex families (c.headD dFam))
      (build_clusters families rmap)) ([], [])
  have h2 : joinAreas (([], []) :
      List (Nat × List (List Family)) × List (Nat × Nat)).1 = [] := by
    simp [joinAreas]
  rw [h2, List.nil_append] at h1
  exact h1.trans (List.Perm.flatten (sortByKey_perm _ _))

/-- C2: for every run of the pipeline (capacity ≥ 1, as the source would
raise `ZeroDivisionError` at capacity 0), the multiset of units seated
across all tables of all areas equals exactly the multiset handed to the
area-assignment stage — the concatenation of the built clusters: no unit
seated twice, none omitted. -/
theorem c2_seated_units_are_exactly_the_clusters (families : List Family)
    (rmap : List (Family × List Family)) (table_size : Nat)
    (_hts : 0 < table_size) :
    List.Perm (joinAreas (create_area_aware_seating families rmap table_size).1)
      ((build_clusters families rmap).flatten) :=
  seated_perm_clusters families rmap table_size

/-- C2 witness: the theorem applied at a concrete run (one size-4 unit
and one size-2 unit it requests, capacity 10). -/
theorem c2_seated_units_are_exactly_the_clusters_witness :
    List.Perm (joinAreas (create_area_aware_seating [aFam, bFam] [(aFam, [bFam])] 10).1)
      ((build_clusters [aFam, bFam] [(aFam, [bFam])]).flatten) :=
  c2_seated_units_are_exactly_the_clusters [aFam, bFam] [(aFam, [bFam])] 10
    (by decide)

/-! ## Characterization of the area-assignment loop (machinery for C3, C4) -/

theorem extra_lt_trans {a b c : Extra} (h1 : Extra.lt a b = true)
    (h2 : Extra.lt b c = true) : Extra.lt a c = true := by
  cases a <;> cases b <;> cases c <;> simp_all [Extra.lt]
  omega

theorem extra_lt_total (a b : Extra) :
    Extra.lt a b = true ∨ a = b ∨ Extra.lt b a = true := by
  cases a <;> cases b <;> simp_all [Extra.lt]
  omega

theorem extra_lt_irrefl (a : Extra) : Extra.lt a a = false := by
  cases a <;> simp [Extra.lt]

theorem valBetter_trans {a b c : Extra × Int} (h1 : valBetter a b)
    (h2 : valBetter b c) : valBetter a c := by
  rcases h1 with h1 | ⟨h1e, h1r⟩ <;> rcases h2 with h2 | ⟨h2e, h2r⟩
  · exact Or.inl (extra_lt_trans h1 h2)
  · exact Or.inl (h2e ▸ h1)
  · exact Or.inl (h1e ▸ h2)
  · exact Or.inr ⟨h1e.trans h2e, h2r.trans h1r⟩

theorem valBetter_of_not_of_better {a b c : Extra × Int} (h1 : ¬ valBetter a b)
    (h2 : valBetter c b) : valBetter c a := by
  simp only [valBetter, not_or, not_and, not_lt] at h1
  obtain ⟨h1l, h1r⟩ := h1
  rcases h2 with h2 | ⟨h2e, h2r⟩
  · rcases extra_lt_total a.1 b.1 with ht | ht | ht
    · exact absurd ht (by simp [h1l])
    · exact Or.inl (ht ▸ h2)
    · exact Or.inl (extra_lt_trans h2 ht)
  · rcases extra_lt_total a.1 b.1 with ht | ht | ht
    · exact absurd ht (by simp [h1l])
    · exact Or.inr ⟨h2e.trans ht.symm, lt_of_le_of_lt (h1r ht) h2r⟩
    · exact Or.inl (h2e ▸ ht)

theorem assignLoop_cons (cs : Int) (ts : Nat) (area_used : List (Nat × Nat))
    (aidx : Nat) (tables : List (List Family))
    (rest : List (Nat × List (List Family))) (j0 : Nat) (e0 : Extra) (r0 : Int) :
    assignLoop cs ts area_used ((aidx, tables) :: rest) (some (j0, (e0, r0))) =
      (if Extra.lt (entryExtra area_used ts cs (aidx, tables)) e0 = true then
        assignLoop cs ts area_used rest
          (some (aidx, entryVal area_used ts cs (aidx, tables)))
      else if (entryExtra area_used ts cs (aidx, tables) == e0 &&
            decide (r0 < entryRemaining area_used ts (aidx, tables))) = true then
        assignLoop cs ts area_used rest
          (some (aidx, (e0, entryRemaining area_used ts (aidx, tables))))
      else assignLoop cs ts area_used rest (some (j0, (e0, r0)))) := rfl

theorem assignLoop_spec (cs : Int) (ts : Nat) (area_used : List (Nat × Nat)) :
    ∀ (areas : List (Nat × List (List Family))) (j0 : Nat) (v0 : Extra × Int),
      (assignLoop cs ts area_used areas (some (j0, v0)) = some (j0, v0) ∧
        ∀ q ∈ areas, ¬ valBetter (entryVal area_used ts cs q) v0) ∨
      (∃ pre p suf, areas = pre ++ p :: suf ∧
        valBetter (entryVal area_used ts cs p) v0 ∧
        assignLoop cs ts area_used areas (some (j0, v0)) =
          some (p.1, entryVal area_used ts cs p) ∧
        (∀ q ∈ pre, valBetter (entryVal area_used ts cs p)
          (entryVal area_used ts cs q)) ∧
        (∀ q ∈ suf, ¬ valBetter (entryVal area_used ts cs q)
          (entryVal area_used ts cs p))) := by
  intro areas
  induction areas with
  | nil =>
    intro j0 v0
    exact Or.inl ⟨rfl, by simp⟩
  | cons p rest ih =>
    intro j0 v0
    obtain ⟨aidx, tables⟩ := p
    obtain ⟨e0, r0⟩ := v0
    rw [assignLoop_cons]
    by_cases hlt : Extra.lt (entryExtra area_used ts cs (aidx, tables)) e0 = true
    · -- branch 1: strictly smaller extra, entry taken
      rw [if_pos hlt]
      have hbet : valBetter (entryVal area_used ts cs (aidx, tables)) (e0, r0) :=
        Or.inl hlt
      rcases ih aidx (entryVal area_used ts cs (aidx, tables)) with ⟨hres, hall⟩ |
        ⟨pre, p2, suf, hdec, hb2, hres, hpre, hsuf⟩
      · exact Or.inr ⟨[], (aidx, tables), rest, rfl, hbet, hres, by simp, hall⟩
      · refine Or.inr ⟨(aidx, tables) :: pre, p2, suf, by rw [hdec, List.cons_append],
          valBetter_trans hb2 hbet, hres, ?_, hsuf⟩
        intro q hq
        rcases List.mem_cons.1 hq with rfl | hq
        · exact hb2
        · exact hpre q hq
    · rw [if_neg hlt]
      by_cases heq : (entryExtra area_used ts cs (aidx, tables) == e0 &&
          decide (r0 < entryRemaining area_used ts (aidx, tables))) = true
      · -- branch 2: equal extra, strictly larger remaining, entry taken
        rw [if_pos heq]
        have heq' : entryExtra area_used ts cs (aidx, tables) = e0 ∧
            r0 < entryRemaining area_used ts (aidx, tables) := by
          simpa using heq
        have hbet : valBetter (entryVal area_used ts cs (aidx, tables)) (e0, r0) :=
          Or.inr ⟨heq'.1, heq'.2⟩
        have hst : (some (aidx, (e0, entryRemaining area_used ts (aidx, tables))) :
            Option (Nat × Extra × Int)) =
            some (aidx, entryVal area_used ts cs (aidx, tables)) := by
          rw [entryVal, heq'.1]
        rw [hst]
        rcases ih aidx (entryVal area_used ts cs (aidx, tables)) with ⟨hres, hall⟩ |
          ⟨pre, p2, suf, hdec, hb2, hres, hpre, hsuf⟩
        · exact Or.inr ⟨[], (aidx, tables), rest, rfl, hbet, hres, by simp, hall⟩
        · refine Or.inr ⟨(aidx, tables) :: pre, p2, suf, by rw [hdec, List.cons_append],
            valBetter_trans hb2 hbet, hres, ?_, hsuf⟩
          intro q hq
          rcases List.mem_cons.1 hq with rfl | hq
          · exact hb2
          · exact hpre q hq
      · -- branch 3: entry not better, state unchanged
        rw [if_neg heq]
        have hnb : ¬ valBetter (entryVal area_used ts cs (aidx, tables)) (e0, r0) := by
          intro hb
          rcases hb with hb | ⟨hbe, hbr⟩
          · exact hlt hb
          · exact heq (by simp [entryVal] at hbe hbr; simp [hbe, hbr])
        rcases ih j0 (e0, r0) with ⟨hres, hall⟩ |
          ⟨pre, p2, suf, hdec, hb2, hres, hpre, hsuf⟩
        · refine Or.inl ⟨hres, ?_⟩
          intro q hq
          rcases List.mem_cons.1 hq with rfl | hq
          · exact hnb
          · exact hall q hq
        · refine Or.inr ⟨(aidx, tables) :: pre, p2, suf, by rw [hdec, List.cons_append], hb2,
            hres, ?_, hsuf⟩
          intro q hq
          rcases List.mem_cons.1 hq with rfl | hq
          · exact valBetter_of_not_of_better hnb hb2
          · exact hpre q hq

theorem assignLoop_none_cons (cs : Int) (ts : Nat) (area_used : List (Nat × Nat))
    (aidx : Nat) (tables : List (List Family))
    (rest : List (Nat × List (List Family))) :
    assignLoop cs ts area_used ((aidx, tables) :: rest) none =
      assignLoop cs ts area_used rest
        (some (aidx, entryVal area_used ts cs (aidx, tables))) := rfl

theorem assignBest_decomp (cs : Int) (ts : Nat) (area_used : List (Nat × Nat))
    (p1 : Nat × List (List Family)) (rest : List (Nat × List (List Family))) :
    ∃ pre p suf, (p1 :: rest : List (Nat × List (List Family))) = pre ++ p :: suf ∧
      assignLoop cs ts area_used rest (some (p1.1, entryVal area_used ts cs p1)) =
        some (p.1, entryVal area_used ts cs p) ∧
      (∀ q ∈ pre, valBetter (entryVal area_used ts cs p)
        (entryVal area_used ts cs q)) ∧
      (∀ q ∈ suf, ¬ valBetter (entryVal area_used ts cs q)
        (entryVal area_used ts cs p)) := by
  rcases assignLoop_spec cs ts area_used rest p1.1 (entryVal area_used ts cs p1) with
    ⟨hres, hall⟩ | ⟨pre, p2, suf, hdec, _hb2, hres, hpre, hsuf⟩
  · exact ⟨[], p1, rest, rfl, hres, by simp, hall⟩
  · refine ⟨p1 :: pre, p2, suf, by rw [hdec, List.cons_append], hres, ?_, hsuf⟩
    intro q hq
    rcases List.mem_cons.1 hq with rfl | hq
    · exact _hb2
    · exact hpre q hq

theorem zeroExtra_better {au : List (Nat × Nat)} {ts : Nat} {cs : Int}
    {p q : Nat × List (List Family)} (hq : cs ≤ entryRemaining au ts q)
    (hp : ¬ cs ≤ entryRemaining au ts p) :
    valBetter (entryVal au ts cs q) (entryVal au ts cs p) :=
  Or.inl (by simp [entryVal, entryExtra, if_pos hq, if_neg hp, Extra.lt])

theorem zeroExtra_of_better {au : List (Nat × Nat)} {ts : Nat} {cs : Int}
    {p q : Nat × List (List Family)} (hq : cs ≤ entryRemaining au ts q)
    (h : valBetter (entryVal au ts cs p) (entryVal au ts cs q)) :
    cs ≤ entryRemaining au ts p := by
  by_contra hp
  rcases h with h | ⟨he, _⟩
  · simp [entryVal, entryExtra, if_pos hq, if_neg hp, Extra.lt] at h
  · simp [entryVal, entryExtra, if_pos hq, if_neg hp] at he

theorem better_iff_rem {au : List (Nat × Nat)} {ts : Nat} {cs : Int}
    {p q : Nat × List (List Family)} (hp : cs ≤ entryRemaining au ts p)
    (hq : cs ≤ entryRemaining au ts q) :
    valBetter (entryVal au ts cs p) (entryVal au ts cs q) ↔
      entryRemaining au ts q < entryRemaining au ts p := by
  unfold valBetter entryVal entryExtra
  rw [if_pos hp, if_pos hq]
  simp [Extra.lt]

theorem extra_inf_of_not_fit {au : List (Nat × Nat)} {ts : Nat} {cs : Int}
    {p : Nat × List (List Family)} (hp : ¬ cs ≤ entryRemaining au ts p) :
    entryExtra au ts cs p = .inf := by
  simp [entryExtra, if_neg hp]

theorem mem_of_decomp {p : Nat × List (List Family)}
    {pre suf areas : List (Nat × List (List Family))}
    (h : areas = pre ++ p :: suf) : p ∈ areas := by
  subst h; exact List.mem_append_right pre (List.mem_cons_self _ _)

theorem mem_cases_of_decomp {q p : Nat × List (List Family)}
    {pre suf areas : List (Nat × List (List Family))}
    (h : areas = pre ++ p :: suf) (hq : q ∈ areas) :
    q ∈ pre ∨ q = p ∨ q ∈ suf := by
  subst h
  rcases List.mem_append.1 hq with hq | hq
  · exact Or.inl hq
  · rcases List.mem_cons.1 hq with hq | hq
    · exact Or.inr (Or.inl hq)
    · exact Or.inr (Or.inr hq)

/-- C3 (amended): whenever some existing area is a zero-extra candidate
for the cluster (remaining = tables*capacity − used ≥ cluster size),
`assign_cluster_to_area` returns the zero-extra candidate with the
LARGEST remaining capacity (the loosest fit — not the smallest, as the
claim states), breaking ties in favour of the earliest area in iteration
order (the lowest area index, since the pipeline inserts keys 0,1,2,...
in order).  The capacity hypothesis reflects the `ZeroDivisionError` the
source would raise at capacity 0. -/
theorem c3_amended_loosest_fit_wins (cluster : List Family)
    (areas : List (Nat × List (List Family))) (area_used : List (Nat × Nat))
    (table_size : Nat) (_hts : 0 < table_size)
    (hze : ∃ p ∈ areas,
      (sumSizes cluster : Int) ≤ entryRemaining area_used table_size p) :
    ∃ pre p suf, areas = pre ++ p :: suf ∧
      (sumSizes cluster : Int) ≤ entryRemaining area_used table_size p ∧
      assign_cluster_to_area cluster areas area_used table_size = p.1 ∧
      (∀ q ∈ pre,
        (sumSizes cluster : Int) ≤ entryRemaining area_used table_size q →
        entryRemaining area_used table_size q <
          entryRemaining area_used table_size p) ∧
      (∀ q ∈ suf,
        (sumSizes cluster : Int) ≤ entryRemaining area_used table_size q →
        entryRemaining area_used table_size q ≤
          entryRemaining area_used table_size p) := by
  obtain ⟨q0, hq0mem, hq0⟩ := hze
  cases areas with
  | nil => cases hq0mem
  | cons p1 rest =>
    obtain ⟨pre, p, suf, hdec, hres, hpre, hsuf⟩ :=
      assignBest_decomp (sumSizes cluster : Int) table_size area_used p1 rest
    -- the final best is itself a zero-extra candidate
    have hzp : (sumSizes cluster : Int) ≤ entryRemaining area_used table_size p := by
      rcases mem_cases_of_decomp hdec hq0mem with hq | rfl | hq
      · exact zeroExtra_of_better hq0 (hpre q0 hq)
      · exact hq0
      · by_contra hp
        exact hsuf q0 hq (zeroExtra_better hq0 hp)
    refine ⟨pre, p, suf, hdec, hzp, ?_, ?_, ?_⟩
    · -- the function returns the best candidate
      show (match assignLoop (sumSizes cluster : Int) table_size area_used
          (p1 :: rest) none with
        | none => (p1 :: rest).length
        | some (bidx, bextra, _) =>
          if Extra.lt (.fin ((sumSizes cluster + table_size - 1) / table_size))
              bextra = true then (p1 :: rest).length else bidx) = p.1
      rw [assignLoop_none_cons, hres]
      have he : entryVal area_used table_size (sumSizes cluster : Int) p =
          (.fin 0, entryRemaining area_used table_size p) := by
        simp [entryVal, entryExtra, if_pos hzp]
      rw [he]
      simp [Extra.lt]
    · intro q hq hqz
      exact (better_iff_rem hzp hqz).1 (hpre q hq)
    · intro q hq hqz
      by_contra hlt
      exact hsuf q hq ((better_iff_rem hqz hzp).2 (by omega))

/-- C3 amended theorem applied at the counterexample input: area 1 has
remaining 5, area 0 has remaining 10, both fit the size-3 cluster, and
the loosest fit (area 0, first position) is returned. -/
theorem c3_amended_loosest_fit_wins_witness :
    ∃ pre p suf,
      ([(0, [[]]), (1, [[]])] : List (Nat × List (List Family))) = pre ++ p :: suf ∧
      (sumSizes [fThree] : Int) ≤ entryRemaining [(0, 0), (1, 5)] 10 p ∧
      assign_cluster_to_area [fThree] [(0, [[]]), (1, [[]])] [(0, 0), (1, 5)] 10 =
        p.1 ∧
      (∀ q ∈ pre, (sumSizes [fThree] : Int) ≤ entryRemaining [(0, 0), (1, 5)] 10 q →
        entryRemaining [(0, 0), (1, 5)] 10 q < entryRemaining [(0, 0), (1, 5)] 10 p) ∧
      (∀ q ∈ suf, (sumSizes [fThree] : Int) ≤ entryRemaining [(0, 0), (1, 5)] 10 q →
        entryRemaining [(0, 0), (1, 5)] 10 q ≤ entryRemaining [(0, 0), (1, 5)] 10 p) :=
  c3_amended_loosest_fit_wins [fThree] [(0, [[]]), (1, [[]])] [(0, 0), (1, 5)] 10
    (by decide) (by decide)

/-- C4: for a cluster of total size ≥ 1 (and capacity ≥ 1; area keys
0..n−1 in insertion order as the pipeline maintains them),
`assign_cluster_to_area` returns the brand-new area index — equal to the
current number of areas — if and only if no existing area has remaining
capacity ≥ the cluster size; and whenever it returns an existing area,
that area is a zero-extra candidate, so an area that would require
adding tables is never chosen over opening a new area. -/
theorem c4_new_area_iff_no_zero_extra (cluster : List Family)
    (areas : List (Nat × List (List Family))) (area_used : List (Nat × Nat))
    (table_size : Nat) (_hcs : 1 ≤ sumSizes cluster) (_hts : 0 < table_size)
    (hkeys : areas.map Prod.fst = List.range areas.length) :
    (assign_cluster_to_area cluster areas area_used table_size = areas.length ↔
      ∀ p ∈ areas,
        entryRemaining area_used table_size p < (sumSizes cluster : Int)) ∧
    (assign_cluster_to_area cluster areas area_used table_size ≠ areas.length →
      ∃ p ∈ areas,
        p.1 = assign_cluster_to_area cluster areas area_used table_size ∧
        (sumSizes cluster : Int) ≤ entryRemaining area_used table_size p) := by
  cases areas with
  | nil =>
    constructor
    · constructor
      · intro _ p hp; cases hp
      · intro _; rfl
    · intro h; cases h rfl
  | cons p1 rest =>
    obtain ⟨pre, p, suf, hdec, hres, hpre, hsuf⟩ :=
      assignBest_decomp (sumSizes cluster : Int) table_size area_used p1 rest
    -- master fact 1: when a zero-extra candidate exists, the best is
    -- zero-extra and it is returned
    have master1 : (∃ q ∈ (p1 :: rest),
        (sumSizes cluster : Int) ≤ entryRemaining area_used table_size q) →
        (sumSizes cluster : Int) ≤ entryRemaining area_used table_size p ∧
        assign_cluster_to_area cluster (p1 :: rest) area_used table_size = p.1 := by
      rintro ⟨q0, hq0mem, hq0⟩
      have hzp : (sumSizes cluster : Int) ≤ entryRemaining area_used table_size p := by
        rcases mem_cases_of_decomp hdec hq0mem with hq | rfl | hq
        · exact zeroExtra_of_better hq0 (hpre q0 hq)
        · exact hq0
        · by_contra hp
          exact hsuf q0 hq (zeroExtra_better hq0 hp)
      refine ⟨hzp, ?_⟩
      show (match assignLoop (sumSizes cluster : Int) table_size area_used
          (p1 :: rest) none with
        | none => (p1 :: rest).length
        | some (bidx, bextra, _) =>
          if Extra.lt (.fin ((sumSizes cluster + table_size - 1) / table_size))
              bextra = true then (p1 :: rest).length else bidx) = p.1
      rw [assignLoop_none_cons, hres]
      have he : entryVal area_used table_size (sumSizes cluster : Int) p =
          (.fin 0, entryRemaining area_used table_size p) := by
        simp [entryVal, entryExtra, if_pos hzp]
      rw [he]
      simp [Extra.lt]
    -- master fact 2: when no zero-extra candidate exists, a new area opens
    have master2 : (∀ q ∈ (p1 :: rest),
        ¬ (sumSizes cluster : Int) ≤ entryRemaining area_used table_size q) →
        assign_cluster_to_area cluster (p1 :: rest) area_used table_size =
          (p1 :: rest).length := by
      intro hall
      show (match assignLoop (sumSizes cluster : Int) table_size area_used
          (p1 :: rest) none with
        | none => (p1 :: rest).length
        | some (bidx, bextra, _) =>
          if Extra.lt (.fin ((sumSizes cluster + table_size - 1) / table_size))
              bextra = true then (p1 :: rest).length else bidx) =
        (p1 :: rest).length
      rw [assignLoop_none_cons, hres]
      have he : entryVal area_used table_size (sumSizes cluster : Int) p =
          (.inf, entryRemaining area_used table_size p) := by
        simp [entryVal, extra_inf_of_not_fit (hall p (mem_of_decomp hdec))]
      rw [he]
      simp [Extra.lt]
    constructor
    · constructor
      · intro heq q hq
        by_contra hge
        obtain ⟨_hzp, hassign⟩ := master1 ⟨q, hq, not_lt.1 hge⟩
        have hplen : p.1 < (p1 :: rest).length := by
          have hpm : p ∈ (p1 :: rest) := mem_of_decomp hdec
          have hmm : p.1 ∈ (p1 :: rest).map Prod.fst := List.mem_map_of_mem _ hpm
          rw [hkeys] at hmm
          exact List.mem_range.1 hmm
        rw [hassign] at heq
        omega
      · intro hall
        exact master2 (fun q hq => not_le.2 (hall q hq))
    · intro hne
      by_cases hex : ∃ q ∈ (p1 :: rest),
          (sumSizes cluster : Int) ≤ entryRemaining area_used table_size q
      · obtain ⟨hzp, hassign⟩ := master1 hex
        exact ⟨p, mem_of_decomp hdec, by rw [hassign], hzp⟩
      · exact absurd (master2 (fun q hq hc => hex ⟨q, hq, hc⟩)) hne

/-- C4 applied at a concrete input: one existing area with one table has
remaining 10 < 15, so a size-15 singleton cluster opens area 1. -/
theorem c4_new_area_iff_no_zero_extra_witness :
    (assign_cluster_to_area [big15] [(0, [[]])] [(0, 0)] 10 =
        ([(0, [[]])] : List (Nat × List (List Family))).length ↔
      ∀ p ∈ ([(0, [[]])] : List (Nat × List (List Family))),
        entryRemaining [(0, 0)] 10 p < (sumSizes [big15] : Int)) ∧
    (assign_cluster_to_area [big15] [(0, [[]])] [(0, 0)] 10 ≠
        ([(0, [[]])] : List (Nat × List (List Family))).length →
      ∃ p ∈ ([(0, [[]])] : List (Nat × List (List Family))),
        p.1 = assign_cluster_to_area [big15] [(0, [[]])] [(0, 0)] 10 ∧
        (sumSizes [big15] : Int) ≤ entryRemaining [(0, 0)] 10 p) :=
  c4_new_area_iff_no_zero_extra [big15] [(0, [[]])] [(0, 0)] 10
    (by decide) (by decide) (by decide)

/-! ## Characterization of the table-placement step (machinery for C5) -/

theorem bestTableLoop_cons (ts fs : Nat) (req : List Family) (used : List Nat)
    (i : Nat) (table : List Family) (rest : List (Nat × List Family))
    (bt : Option Nat) (bs : Int) :
    bestTableLoop ts fs req used ((i, table) :: rest) (bt, bs) =
      (if (ts : Int) - (used.getD i 0 : Int) < (fs : Int) then
        bestTableLoop ts fs req used rest (bt, bs)
      else if bs < (scoreOf req table : Int) then
        bestTableLoop ts fs req used rest (some i, (scoreOf req table : Int))
      else bestTableLoop ts fs req used rest (bt, bs)) := rfl

theorem bestTableLoop_spec (ts fs : Nat) (req : List Family) (used : List Nat) :
    ∀ (pairs : List (Nat × List Family)) (bt : Option Nat) (bs : Int),
      (bestTableLoop ts fs req used pairs (bt, bs) = (bt, bs) ∧
        ∀ q ∈ pairs, (fs : Int) ≤ (ts : Int) - (used.getD q.1 0 : Int) →
          (scoreOf req q.2 : Int) ≤ bs) ∨
      (∃ pre p suf, pairs = pre ++ p :: suf ∧
        (fs : Int) ≤ (ts : Int) - (used.getD p.1 0 : Int) ∧
        bs < (scoreOf req p.2 : Int) ∧
        bestTableLoop ts fs req used pairs (bt, bs) =
          (some p.1, (scoreOf req p.2 : Int)) ∧
        (∀ q ∈ pre, (fs : Int) ≤ (ts : Int) - (used.getD q.1 0 : Int) →
          (scoreOf req q.2 : Int) < (scoreOf req p.2 : Int)) ∧
        (∀ q ∈ suf, (fs : Int) ≤ (ts : Int) - (used.getD q.1 0 : Int) →
          (scoreOf req q.2 : Int) ≤ (scoreOf req p.2 : Int))) := by
  intro pairs
  induction pairs with
  | nil =>
    intro bt bs
    exact Or.inl ⟨rfl, by simp⟩
  | cons p rest ih =>
    intro bt bs
    obtain ⟨i, table⟩ := p
    rw [bestTableLoop_cons]
    by_cases hrem : (ts : Int) - (used.getD i 0 : Int) < (fs : Int)
    · -- table lacks capacity: skipped
      rw [if_pos hrem]
      have hnel : ¬ (fs : Int) ≤ (ts : Int) - (used.getD i 0 : Int) := not_le.2 hrem
      rcases ih bt bs with ⟨hres, hall⟩ |
        ⟨pre, p2, suf, hdec, hel, hgt, hres, hpre, hsuf⟩
      · refine Or.inl ⟨hres, ?_⟩
        intro q hq
        rcases List.mem_cons.1 hq with rfl | hq
        · exact fun h => absurd h hnel
        · exact hall q hq
      · refine Or.inr ⟨(i, table) :: pre, p2, suf, by rw [hdec, List.cons_append],
          hel, hgt, hres, ?_, hsuf⟩
        intro q hq
        rcases List.mem_cons.1 hq with rfl | hq
        · exact fun h => absurd h hnel
        · exact hpre q hq
    · rw [if_neg hrem]
      have hel0 : (fs : Int) ≤ (ts : Int) - (used.getD i 0 : Int) := not_lt.1 hrem
      by_cases hsc : bs < (scoreOf req table : Int)
      · -- strictly better score: taken
        rw [if_pos hsc]
        rcases ih (some i) ((scoreOf req table : Nat) : Int) with ⟨hres, hall⟩ |
          ⟨pre, p2, suf, hdec, hel, hgt, hres, hpre, hsuf⟩
        · exact Or.inr ⟨[], (i, table), rest, rfl, hel0, hsc, hres, by simp, hall⟩
        · refine Or.inr ⟨(i, table) :: pre, p2, suf, by rw [hdec, List.cons_append],
            hel, hsc.trans hgt, hres, ?_, hsuf⟩
          intro q hq
          rcases List.mem_cons.1 hq with rfl | hq
          · exact fun _ => hgt
          · exact hpre q hq
      · -- dominated: state unchanged
        rw [if_neg hsc]
        have hle : (scoreOf req table : Int) ≤ bs := not_lt.1 hsc
        rcases ih bt bs with ⟨hres, hall⟩ |
          ⟨pre, p2, suf, hdec, hel, hgt, hres, hpre, hsuf⟩
        · refine Or.inl ⟨hres, ?_⟩
          intro q hq
          rcases List.mem_cons.1 hq with rfl | hq
          · exact fun _ => hle
          · exact hall q hq
        · refine Or.inr ⟨(i, table) :: pre, p2, suf, by rw [hdec, List.cons_append],
            hel, hgt, hres, ?_, hsuf⟩
          intro q hq
          rcases List.mem_cons.1 hq with rfl | hq
          · exact fun _ => lt_of_le_of_lt hle hgt
          · exact hpre q hq

theorem firstFit_none {fs ts : Nat} :
    ∀ (used : List Nat), (∀ j, j < used.length → ¬ used.getD j 0 + fs ≤ ts) →
      ∀ n, firstFit fs ts used n = none := by
  intro used
  induction used with
  | nil => intro _ n; rfl
  | cons u rest ih =>
    intro hall n
    have h0 : ¬ u + fs ≤ ts := by
      have := hall 0 (by simp)
      simpa using this
    simp only [firstFit, if_neg h0]
    refine ih ?_ (n + 1)
    intro j hj
    have := hall (j + 1) (by simpa using Nat.succ_lt_succ hj)
    simpa using this

theorem enum_decomp {tables : List (List Family)}
    {pre suf : List (Nat × List Family)} {p : Nat × List Family}
    (h : tables.enum = pre ++ p :: suf) :
    p.1 = pre.length ∧ pre.length < tables.length ∧
    p.2 = tables.getD pre.length [] := by
  have hlen : tables.enum.length = pre.length + (p :: suf).length := by
    rw [h, List.length_append]
  rw [List.enum_length, List.length_cons] at hlen
  have hlt : pre.length < tables.length := by omega
  have hidx : tables.enum[pre.length]? = some p := by
    rw [h, List.getElem?_append_right (Nat.le_refl pre.length)]
    simp
  rw [List.getElem?_enum] at hidx
  cases htp : tables[pre.length]? with
  | none => rw [htp] at hidx; cases hidx
  | some t =>
    rw [htp] at hidx
    simp only [Option.map_some'] at hidx
    have hpt := Option.some.inj hidx
    refine ⟨(congrArg Prod.fst hpt).symm ▸ rfl, hlt, ?_⟩
    rw [← hpt]
    show t = tables.getD pre.length []
    rw [List.getD_eq_getElem?_getD, htp]
    rfl

theorem enum_suf_gt {tables : List (List Family)}
    {pre suf : List (Nat × List Family)} {p : Nat × List Family}
    (h : tables.enum = pre ++ p :: suf) {q : Nat × List Family} (hq : q ∈ suf) :
    p.1 < q.1 := by
  obtain ⟨s1, s2, rfl⟩ := List.append_of_mem hq
  have h2 : tables.enum = (pre ++ p :: s1) ++ q :: s2 := by
    rw [h]; simp
  have d1 := enum_decomp h
  have d2 := enum_decomp h2
  rw [d1.1, d2.1]
  simp only [List.length_append, List.length_cons]
  omega

theorem mem_enum_of_lt {tables : List (List Family)} {k : Nat}
    (hk : k < tables.length) : (k, tables.getD k []) ∈ tables.enum := by
  rw [List.getD_eq_getElem tables [] hk, List.mk_mem_enum_iff_getElem?]
  exact List.getElem?_eq_getElem hk

/-- C5: the first conjunct records that `place_cluster_into_area`
processes the units in cluster order through the per-unit step
`placeFam` (with the used-seat counters initialised from the tables).
The second conjunct characterizes the per-unit step: with `table_used`
and `area_tables` of equal length (as the loop maintains), either some
table is capacity-eligible and the unit is appended to the eligible
table with the highest adjacency score — ties broken by lowest table
index — or no existing table has remaining capacity ≥ the unit size and
exactly then a new table holding only the unit is appended. -/
theorem c5_unit_seated_at_best_eligible_table (table_size : Nat)
    (rmap : List (Family × List Family)) (tables : List (List Family))
    (used : List Nat) (fam : Family) (hlen : used.length = tables.length) :
    (∀ (cluster : List Family) (tables0 : List (List Family)),
      place_cluster_into_area cluster tables0 table_size rmap =
        (cluster.foldl (placeFam table_size rmap)
          (tables0, tables0.map sumSizes)).1) ∧
    ((∃ j, j < tables.length ∧
      (fam.size : Int) ≤ (table_size : Int) - (used.getD j 0 : Int) ∧
      placeFam table_size rmap (tables, used) fam =
        (tables.set j (tables.getD j [] ++ [fam]),
         used.set j (used.getD j 0 + fam.size)) ∧
      (∀ k, k < tables.length →
        (fam.size : Int) ≤ (table_size : Int) - (used.getD k 0 : Int) →
        (scoreOf ((assocGet Family.beq rmap fam).getD []) (tables.getD k []) <
           scoreOf ((assocGet Family.beq rmap fam).getD []) (tables.getD j []) ∨
         (scoreOf ((assocGet Family.beq rmap fam).getD []) (tables.getD k []) =
            scoreOf ((assocGet Family.beq rmap fam).getD []) (tables.getD j []) ∧
          j ≤ k)))) ∨
    ((∀ k, k < tables.length →
        ¬ (fam.size : Int) ≤ (table_size : Int) - (used.getD k 0 : Int)) ∧
      placeFam table_size rmap (tables, used) fam =
        (tables ++ [[fam]], used ++ [fam.size]))) := by
  refine ⟨fun _ _ => rfl, ?_⟩
  rcases bestTableLoop_spec table_size fam.size
      ((assocGet Family.beq rmap fam).getD []) used tables.enum none (-1) with
    ⟨hres, hall⟩ | ⟨pre, p, suf, hdec, hel, _hgt, hres, hpre, hsuf⟩
  · -- no capacity-eligible table
    have hnel : ∀ k, k < tables.length →
        ¬ (fam.size : Int) ≤ (table_size : Int) - (used.getD k 0 : Int) := by
      intro k hk helk
      have := hall (k, tables.getD k []) (mem_enum_of_lt hk) helk
      have hnn : (0 : Int) ≤ (scoreOf ((assocGet Family.beq rmap fam).getD [])
          (tables.getD k []) : Int) := Int.natCast_nonneg _
      omega
    refine Or.inr ⟨hnel, ?_⟩
    unfold placeFam
    simp only
    rw [hres]
    have hff : firstFit fam.size table_size used 0 = none := by
      refine firstFit_none used ?_ 0
      intro j hj
      have hjt : j < tables.length := by omega
      have := hnel j hjt
      omega
    rw [hff]
  · -- an eligible table exists: the decomposition point wins
    obtain ⟨hp1, hplen, hp2⟩ := enum_decomp hdec
    refine Or.inl ⟨p.1, ?_, ?_, ?_, ?_⟩
    · rw [hp1]; exact hplen
    · exact hel
    · unfold placeFam
      simp only
      rw [hres]
    · intro k hk hkel
      by_cases hkj : k = p.1
      · subst hkj
        exact Or.inr ⟨rfl, le_refl _⟩
      · have hq : (k, tables.getD k []) ∈ tables.enum := mem_enum_of_lt hk
        rw [hdec] at hq
        rcases List.mem_append.1 hq with hq | hq
        · have := hpre (k, tables.getD k []) hq hkel
          rw [hp1, ← hp2]
          exact Or.inl (by exact_mod_cast this)
        · rcases List.mem_cons.1 hq with heqp | hq
          · exact absurd (congrArg Prod.fst heqp) hkj
          · have hle := hsuf (k, tables.getD k []) hq hkel
            have hgt2 : p.1 < k := enum_suf_gt hdec hq
            rw [hp1, ← hp2] at *
            rcases lt_or_eq_of_le (by exact_mod_cast hle :
              scoreOf ((assocGet Family.beq rmap fam).getD []) (tables.getD k []) ≤
                scoreOf ((assocGet Family.beq rmap fam).getD []) p.2) with hlt | heq2
            · exact Or.inl hlt
            · exact Or.inr ⟨heq2, le_of_lt hgt2⟩

/-- C5 applied at a concrete step: one table `[[aFam]]` with 3 used
seats, unit `bFam` of size 3 requesting `aFam`, capacity 10. -/
theorem c5_unit_seated_at_best_eligible_table_witness :
    (∀ (cluster : List Family) (tables0 : List (List Family)),
      place_cluster_into_area cluster tables0 10 [(bFam, [aFam])] =
        (cluster.foldl (placeFam 10 [(bFam, [aFam])])
          (tables0, tables0.map sumSizes)).1) ∧
    ((∃ j, j < ([[aFam]] : List (List Family)).length ∧
      (bFam.size : Int) ≤ (10 : Int) - (([3] : List Nat).getD j 0 : Int) ∧
      placeFam 10 [(bFam, [aFam])] ([[aFam]], [3]) bFam =
        (([[aFam]] : List (List Family)).set j
          (([[aFam]] : List (List Family)).getD j [] ++ [bFam]),
         ([3] : List Nat).set j (([3] : List Nat).getD j 0 + bFam.size)) ∧
      (∀ k, k < ([[aFam]] : List (List Family)).length →
        (bFam.size : Int) ≤ (10 : Int) - (([3] : List Nat).getD k 0 : Int) →
        (scoreOf ((assocGet Family.beq [(bFam, [aFam])] bFam).getD [])
            (([[aFam]] : List (List Family)).getD k []) <
           scoreOf ((assocGet Family.beq [(bFam, [aFam])] bFam).getD [])
            (([[aFam]] : List (List Family)).getD j []) ∨
         (scoreOf ((assocGet Family.beq [(bFam, [aFam])] bFam).getD [])
            (([[aFam]] : List (List Family)).getD k []) =
            scoreOf ((assocGet Family.beq [(bFam, [aFam])] bFam).getD [])
              (([[aFam]] : List (List Family)).getD j []) ∧
          j ≤ k)))) ∨
    ((∀ k, k < ([[aFam]] : List (List Family)).length →
        ¬ (bFam.size : Int) ≤ (10 : Int) - (([3] : List Nat).getD k 0 : Int)) ∧
      placeFam 10 [(bFam, [aFam])] ([[aFam]], [3]) bFam =
        ([[aFam]] ++ [[bFam]], [3] ++ [bFam.size]))) :=
  c5_unit_seated_at_best_eligible_table 10 [(bFam, [aFam])] [[aFam]] [3] bFam
    (by decide)

/-! ## Characterization of the conflict report (machinery for C9) -/

theorem conflict_inner_fold (location : List (Family × (Nat × Nat)))
    (f : Family) (fam_area : Option Nat) :
    ∀ (reqs : List Family) (acc : List (Family × Family × String)),
      reqs.foldl (fun conflicts other =>
        conflicts ++ (conflictFor location f fam_area other).toList) acc =
      acc ++ reqs.filterMap (conflictFor location f fam_area) := by
  intro reqs
  induction reqs with
  | nil => intro acc; simp
  | cons other rest ih =>
    intro acc
    simp only [List.foldl_cons, List.filterMap_cons]
    rw [ih]
    cases hcf : conflictFor location f fam_area other <;> simp [hcf]

theorem conflict_report_eq (areas : List (Nat × List (List Family)))
    (rmap : List (Family × List Family)) :
    generate_conflict_report areas rmap =
      rmap.flatMap (fun pr => pr.2.filterMap
        (conflictFor (buildLocation areas) pr.1
          ((assocGet Family.beq (buildLocation areas) pr.1).map Prod.fst))) := by
  unfold generate_conflict_report
  simp only
  generalize buildLocation areas = location
  have main : ∀ (rs : List (Family × List Family))
      (acc : List (Family × Family × String)),
      rs.foldl (fun conflicts pr =>
        pr.2.foldl (fun conflicts other =>
          conflicts ++ (conflictFor location pr.1
            ((assocGet Family.beq location pr.1).map Prod.fst) other).toList)
          conflicts) acc =
      acc ++ rs.flatMap (fun pr => pr.2.filterMap
        (conflictFor location pr.1
          ((assocGet Family.beq location pr.1).map Prod.fst))) := by
    intro rs
    induction rs with
    | nil => intro acc; simp
    | cons pr rest ih =>
      intro acc
      simp only [List.foldl_cons, List.flatMap_cons]
      rw [conflict_inner_fold, ih, List.append_assoc]
  exact main rmap []

/-- C9 (amended): for every (requester, requested) pair of the
resolved-request map, in map iteration order, the report emits
(requester, requested, "Requested family not found") exactly when the
requested unit is seated at no table, emits (requester, requested,
"Not seated in same area") exactly when the requested unit is seated in
an area different from the requester's (the code's reason strings are
capitalized, unlike the claim's), and emits nothing when both are seated
in the same area, even at different tables. -/
theorem c9_conflict_emission_iff (areas : List (Nat × List (List Family)))
    (rmap : List (Family × List Family)) (f g : Family) (reason : String) :
    (f, g, reason) ∈ generate_conflict_report areas rmap ↔
      ∃ reqs, (f, reqs) ∈ rmap ∧ g ∈ reqs ∧
        ((assocGet Family.beq (buildLocation areas) g = none ∧
          reason = "Requested family not found") ∨
         (∃ loc2, assocGet Family.beq (buildLocation areas) g = some loc2 ∧
          (some loc2.1 : Option Nat) ≠
            (assocGet Family.beq (buildLocation areas) f).map Prod.fst ∧
          reason = "Not seated in same area")) := by
  rw [conflict_report_eq, List.mem_flatMap]
  constructor
  · rintro ⟨pr, hpr, hmem⟩
    rw [List.mem_filterMap] at hmem
    obtain ⟨other, hother, hcf⟩ := hmem
    unfold conflictFor at hcf
    split at hcf
    next hget =>
      obtain ⟨h1, h2, h3⟩ : pr.1 = f ∧ other = g ∧
          "Requested family not found" = reason := by
        have h := Option.some.inj hcf
        exact ⟨congrArg Prod.fst h, congrArg (Prod.fst ∘ Prod.snd) h,
          congrArg (Prod.snd ∘ Prod.snd) h⟩
      refine ⟨pr.2, ?_, h2 ▸ hother, Or.inl ⟨h2 ▸ hget, h3.symm⟩⟩
      have hpr2 : pr = (f, pr.2) := by rw [← h1]
      rw [← hpr2]
      exact hpr
    next loc2 hget =>
      split at hcf
      next hcond =>
        obtain ⟨h1, h2, h3⟩ : pr.1 = f ∧ other = g ∧
            "Not seated in same area" = reason := by
          have h := Option.some.inj hcf
          exact ⟨congrArg Prod.fst h, congrArg (Prod.fst ∘ Prod.snd) h,
            congrArg (Prod.snd ∘ Prod.snd) h⟩
        refine ⟨pr.2, ?_, h2 ▸ hother,
          Or.inr ⟨loc2, h2 ▸ hget, h1 ▸ hcond, h3.symm⟩⟩
        have hpr2 : pr = (f, pr.2) := by rw [← h1]
        rw [← hpr2]
        exact hpr
      next => cases hcf
  · rintro ⟨reqs, hmem, hg, hcase⟩
    refine ⟨(f, reqs), hmem, ?_⟩
    rw [List.mem_filterMap]
    refine ⟨g, hg, ?_⟩
    unfold conflictFor
    rcases hcase with ⟨hget, hreason⟩ | ⟨loc2, hget, hcond, hreason⟩
    · rw [hget]
      show some (f, g, "Requested family not found") = some (f, g, reason)
      rw [hreason]
    · rw [hget]
      show (if some loc2.1 ≠
          Option.map Prod.fst (assocGet Family.beq (buildLocation areas) f) then
          some (f, g, "Not seated in same area") else none) = some (f, g, reason)
      rw [if_pos hcond, hreason]

/-! ## BFS machinery (for C10): potential, neighbor processing -/

theorem adj_congr {g : List (Family × List Family)} {a b : Family}
    (h : Family.beq a b = true) : adj g a = adj g b := by
  unfold adj
  rw [assocGet_fam_congr h]

theorem adj_sub_pool {g : List (Family × List Family)} {x n : Family}
    (h : n ∈ adj g x) : n ∈ adjPool g := by
  unfold adj at h
  unfold adjPool
  cases hget : assocGet Family.beq g x with
  | none => rw [hget] at h; cases h
  | some s =>
    rw [hget] at h
    simp only [Option.getD_some] at h
    have hs : s ∈ g.map Prod.snd := by
      clear h
      induction g with
      | nil => cases hget
      | cons p rest ih =>
        simp only [assocGet] at hget
        by_cases hk : Family.beq x p.1 = true
        · rw [if_pos hk] at hget
          cases hget
          simp
        · rw [if_neg (by simpa using hk)] at hget
          simp only [List.map_cons, List.mem_cons]
          exact Or.inr (ih hget)
    exact List.mem_flatten.2 ⟨s, hs, h⟩

theorem countP_le_countP_of_imp {p q : Family → Bool} :
    ∀ (l : List Family), (∀ x ∈ l, p x = true → q x = true) →
      l.countP p ≤ l.countP q :=
  fun _l h => List.countP_mono_left h

theorem unvis_append_le (g : List (Family × List Family))
    (visited Δ : List Family) : unvis g (visited ++ Δ) ≤ unvis g visited := by
  unfold unvis
  refine countP_le_countP_of_imp _ ?_
  intro x _ hx
  simp only [Bool.not_eq_true'] at hx ⊢
  cases hfm : famMem x visited with
  | false => rfl
  | true => rw [famMem_append_left Δ hfm] at hx; cases hx

theorem unvis_append_lt {g : List (Family × List Family)} {visited : List Family}
    {n : Family} (hpool : n ∈ adjPool g) (hnv : famMem n visited = false) :
    unvis g (visited ++ [n]) < unvis g visited := by
  unfold unvis
  obtain ⟨s, t, hst⟩ := List.append_of_mem hpool
  rw [hst, List.countP_append, List.countP_append, List.countP_cons, List.countP_cons]
  have hbefore : (! famMem n visited) = true := by rw [hnv]; rfl
  have hafter : (! famMem n (visited ++ [n])) = false := by
    rw [famMem_append_right visited (famMem_of_mem (List.mem_singleton.2 rfl))]
    rfl
  rw [hbefore, hafter, if_pos rfl, if_neg (by decide : ¬ false = true)]
  have hs := countP_le_countP_of_imp (p := fun m => ! famMem m (visited ++ [n]))
    (q := fun m => ! famMem m visited) s ?_
  · have ht := countP_le_countP_of_imp (p := fun m => ! famMem m (visited ++ [n]))
      (q := fun m => ! famMem m visited) t ?_
    · omega
    · intro x _ hx
      simp only [Bool.not_eq_true'] at hx ⊢
      cases hfm : famMem x visited with
      | false => rfl
      | true => rw [famMem_append_left [n] hfm] at hx; cases hx
  · intro x _ hx
    simp only [Bool.not_eq_true'] at hx ⊢
    cases hfm : famMem x visited with
    | false => rfl
    | true => rw [famMem_append_left [n] hfm] at hx; cases hx

theorem visitNeighbors_spec (g : List (Family × List Family)) :
    ∀ (ns visited cluster queue : List Family),
      (∀ n ∈ ns, n ∈ adjPool g) →
      ∃ Δ, visitNeighbors ns visited cluster queue =
          (visited ++ Δ, cluster ++ Δ, queue ++ Δ) ∧
        (∀ x ∈ Δ, famMem x visited = false) ∧
        (∀ n ∈ ns, famMem n (visited ++ Δ) = true) ∧
        unvis g (visited ++ Δ) + Δ.length ≤ unvis g visited := by
  intro ns
  induction ns with
  | nil =>
    intro visited cluster queue _
    exact ⟨[], by simp [visitNeighbors], by simp, by simp, by simp⟩
  | cons n rest ih =>
    intro visited cluster queue hpool
    cases hv : famMem n visited with
    | true =>
      have hstep : visitNeighbors (n :: rest) visited cluster queue =
          visitNeighbors rest visited cluster queue := by
        simp [visitNeighbors, hv]
      obtain ⟨Δ, heq, hfresh, hcov, hpot⟩ := ih visited cluster queue
        (fun m hm => hpool m (List.mem_cons_of_mem n hm))
      refine ⟨Δ, by rw [hstep, heq], hfresh, ?_, hpot⟩
      intro m hm
      rcases List.mem_cons.1 hm with rfl | hm
      · exact famMem_append_left Δ hv
      · exact hcov m hm
    | false =>
      have hstep : visitNeighbors (n :: rest) visited cluster queue =
          visitNeighbors rest (visited ++ [n]) (cluster ++ [n]) (queue ++ [n]) := by
        simp [visitNeighbors, hv]
      obtain ⟨Δ, heq, hfresh, hcov, hpot⟩ := ih (visited ++ [n]) (cluster ++ [n])
        (queue ++ [n]) (fun m hm => hpool m (List.mem_cons_of_mem n hm))
      have hassoc : ∀ l : List Family, (l ++ [n]) ++ Δ = l ++ (n :: Δ) := fun l => by
        rw [List.append_assoc, List.singleton_append]
      refine ⟨n :: Δ, ?_, ?_, ?_, ?_⟩
      · rw [hstep, heq, hassoc, hassoc, hassoc]
      · intro x hx
        rcases List.mem_cons.1 hx with rfl | hx
        · exact hv
        · have := hfresh x hx
          rw [famMem_append] at this
          exact (Bool.or_eq_false_iff.1 this).1
      · intro m hm
        rcases List.mem_cons.1 hm with rfl | hm
        · exact famMem_of_mem (List.mem_append_right visited (List.mem_cons_self _ _))
        · have := hcov m hm
          rw [hassoc] at this
          exact this
      · have hlt := unvis_append_lt (hpool n (List.mem_cons_self n rest)) hv
        rw [hassoc] at hpot
        simp only [List.length_cons]
        omega

theorem bfs_spec (g : List (Family × List Family)) (V0 : List Family) :
    ∀ (fuel : Nat) (visited cluster queue : List Family),
      visited = V0 ++ cluster →
      (∀ x ∈ queue, x ∈ cluster) →
      (∀ x ∈ cluster, x ∈ queue ∨ ∀ n ∈ adj g x, famMem n visited = true) →
      (∀ x ∈ cluster, famMem x V0 = false) →
      queue.length + unvis g visited ≤ fuel →
      (bfs g fuel visited cluster queue).1 =
        V0 ++ (bfs g fuel visited cluster queue).2 ∧
      (∀ x ∈ cluster, x ∈ (bfs g fuel visited cluster queue).2) ∧
      (∀ x ∈ (bfs g fuel visited cluster queue).2, famMem x V0 = false) ∧
      (∀ x ∈ (bfs g fuel visited cluster queue).2, ∀ n ∈ adj g x,
        famMem n (bfs g fuel visited cluster queue).1 = true) := by
  intro fuel
  induction fuel with
  | zero =>
    intro visited cluster queue hsplit hqc hpend hfresh hpot
    have hq : queue = [] := by
      have := List.length_eq_zero.1 (by omega : queue.length = 0)
      exact this
    subst hq
    refine ⟨hsplit, fun x hx => hx, hfresh, ?_⟩
    intro x hx n hn
    rcases hpend x hx with hq | hcl
    · cases hq
    · exact hcl n hn
  | succ fuel ih =>
    intro visited cluster queue hsplit hqc hpend hfresh hpot
    cases queue with
    | nil =>
      refine ⟨hsplit, fun x hx => hx, hfresh, ?_⟩
      intro x hx n hn
      rcases hpend x hx with hq | hcl
      · cases hq
      · exact hcl n hn
    | cons cur qrest =>
      obtain ⟨Δ, heq, hΔfresh, hΔcov, hΔpot⟩ := visitNeighbors_spec g (adj g cur)
        visited cluster qrest (fun n hn => adj_sub_pool hn)
      have hunf : bfs g (fuel + 1) visited cluster (cur :: qrest) =
          bfs g fuel (visited ++ Δ) (cluster ++ Δ) (qrest ++ Δ) := by
        show bfs g fuel (visitNeighbors (adj g cur) visited cluster qrest).1
          (visitNeighbors (adj g cur) visited cluster qrest).2.1
          (visitNeighbors (adj g cur) visited cluster qrest).2.2 =
          bfs g fuel (visited ++ Δ) (cluster ++ Δ) (qrest ++ Δ)
        rw [heq]
      rw [hunf]
      have hh1 : visited ++ Δ = V0 ++ (cluster ++ Δ) := by
        rw [hsplit, List.append_assoc]
      have hh2 : ∀ x ∈ qrest ++ Δ, x ∈ cluster ++ Δ := by
        intro x hx
        rcases List.mem_append.1 hx with hx | hx
        · exact List.mem_append_left Δ (hqc x (List.mem_cons_of_mem cur hx))
        · exact List.mem_append_right cluster hx
      have hh3 : ∀ x ∈ cluster ++ Δ, x ∈ qrest ++ Δ ∨
          ∀ n ∈ adj g x, famMem n (visited ++ Δ) = true := by
        intro x hx
        rcases List.mem_append.1 hx with hx | hx
        · rcases hpend x hx with hq | hcl
          · rcases List.mem_cons.1 hq with rfl | hq
            · right
              intro n hn
              exact hΔcov n hn
            · exact Or.inl (List.mem_append_left Δ hq)
          · right
            intro n hn
            exact famMem_append_left Δ (hcl n hn)
        · exact Or.inl (List.mem_append_right qrest hx)
      have hh4 : ∀ x ∈ cluster ++ Δ, famMem x V0 = false := by
        intro x hx
        rcases List.mem_append.1 hx with hx | hx
        · exact hfresh x hx
        · have h1 := hΔfresh x hx
          rw [hsplit, famMem_append] at h1
          exact (Bool.or_eq_false_iff.1 h1).1
      have hh5 : (qrest ++ Δ).length + unvis g (visited ++ Δ) ≤ fuel := by
        have h1 : (qrest ++ Δ).length = qrest.length + Δ.length :=
          List.length_append qrest Δ
        simp only [List.length_cons] at hpot
        omega
      obtain ⟨c1, c2, c3, c4⟩ := ih (visited ++ Δ) (cluster ++ Δ) (qrest ++ Δ)
        hh1 hh2 hh3 hh4 hh5
      exact ⟨c1, fun x hx => c2 x (List.mem_append_left Δ hx), c3, c4⟩

/-! ## The request graph: adjacency characterization, symmetry, edges -/

theorem beq_congr_right {k k2 : Family} (x : Family)
    (h : Family.beq k k2 = true) : Family.beq x k = Family.beq x k2 := by
  rw [Bool.eq_iff_iff]
  exact ⟨fun hx => beq_trans hx h, fun hx => beq_trans hx (beq_symm h)⟩

theorem assocGet_assocSet_fam {α : Type} (k x : Family) (v : α) :
    ∀ g : List (Family × α),
      assocGet Family.beq (assocSet Family.beq g k v) x =
        if Family.beq x k = true then some v else assocGet Family.beq g x := by
  intro g
  induction g with
  | nil => simp [assocSet, assocGet]
  | cons p rest ih =>
    obtain ⟨k2, v2⟩ := p
    simp only [assocSet]
    by_cases hk : Family.beq k k2 = true
    · rw [if_pos hk]
      simp only [assocGet]
      by_cases hx : Family.beq x k = true
      · rw [if_pos ((beq_congr_right x hk) ▸ hx), if_pos hx]
      · have hx2 : Family.beq x k2 = false := by
          rw [← beq_congr_right x hk]
          simpa using hx
        rw [hx2]
        simp only [Bool.false_eq_true, if_false, if_neg hx]
    · rw [if_neg hk]
      simp only [assocGet]
      by_cases hx2 : Family.beq x k2 = true
      · have hx : Family.beq x k = false := by
          by_contra hc
          simp only [Bool.not_eq_false] at hc
          exact hk (beq_trans (beq_symm hc) hx2)
        rw [if_pos hx2, hx]
        simp only [Bool.false_eq_true, if_false, assocGet, if_pos hx2]
      · rw [if_neg hx2, ih]
        by_cases hx : Family.beq x k = true
        · rw [if_pos hx, if_pos hx]
        · rw [if_neg hx, if_neg hx]
          simp only [assocGet, if_neg hx2]

theorem assocGet_append_single_none {α : Type} (a x : Family) (v : α) :
    ∀ g : List (Family × α), assocGet Family.beq g x = none →
      assocGet Family.beq (g ++ [(a, v)]) x =
        (if Family.beq x a = true then some v else none) := by
  intro g
  induction g with
  | nil => intro _; simp [assocGet]
  | cons p rest ih =>
    intro h
    simp only [assocGet] at h ⊢
    by_cases hx : Family.beq x p.1 = true
    · rw [if_pos hx] at h; cases h
    · rw [if_neg hx] at h ⊢
      exact ih h

theorem assocGet_append_single_some {α : Type} (a x : Family) (v : α) {s : α} :
    ∀ g : List (Family × α), assocGet Family.beq g x = some s →
      assocGet Family.beq (g ++ [(a, v)]) x = some s := by
  intro g
  induction g with
  | nil => intro h; cases h
  | cons p rest ih =>
    intro h
    simp only [assocGet] at h ⊢
    by_cases hx : Family.beq x p.1 = true
    · rw [if_pos hx] at h ⊢; exact h
    · rw [if_neg hx] at h ⊢
      exact ih h

theorem adj_graphAdd (g : List (Family × List Family)) (a b x : Family) :
    adj (graphAdd g a b) x =
      if Family.beq x a = true then famSetAdd (adj g a) b else adj g x := by
  unfold graphAdd
  cases hget : assocGet Family.beq g a with
  | some s =>
    unfold adj
    rw [assocGet_assocSet_fam]
    by_cases hx : Family.beq x a = true
    · rw [if_pos hx, if_pos hx]
      simp [adj, hget]
    · rw [if_neg hx, if_neg hx]
  | none =>
    unfold adj
    by_cases hx : Family.beq x a = true
    · have hgx : assocGet Family.beq g x = none := by
        rw [assocGet_fam_congr hx, hget]
      rw [assocGet_append_single_none a x [b] g hgx, if_pos hx, if_pos hx]
      have hga : (assocGet Family.beq g a).getD [] = ([] : List Family) := by
        rw [hget]; rfl
      rw [hga]
      simp [famSetAdd, famMem]
    · rw [if_neg hx]
      cases hgx : assocGet Family.beq g x with
      | none => rw [assocGet_append_single_none a x [b] g hgx, if_neg hx]
      | some s2 => rw [assocGet_append_single_some a x [b] g hgx]

theorem adj_mono_graphAdd {g : List (Family × List Family)} {m z : Family}
    (a b : Family) (h : famMem m (adj g z) = true) :
    famMem m (adj (graphAdd g a b) z) = true := by
  rw [adj_graphAdd]
  by_cases hz : Family.beq z a = true
  · rw [if_pos hz]
    rw [adj_congr hz] at h
    exact famMem_famSetAdd_mono b h
  · rw [if_neg hz]
    exact h

theorem graphAdd_edge (g : List (Family × List Family)) (a b : Family) :
    famMem b (adj (graphAdd g a b) a) = true := by
  rw [adj_graphAdd, if_pos (beq_refl a)]
  exact famMem_famSetAdd_self (adj g a) b

theorem adj_mono_addPair {g : List (Family × List Family)} {m z : Family}
    (a b : Family) (h : famMem m (adj g z) = true) :
    famMem m (adj (addPair g a b) z) = true :=
  adj_mono_graphAdd b a (adj_mono_graphAdd a b h)

theorem addPair_edge (g : List (Family × List Family)) (a b : Family) :
    famMem b (adj (addPair g a b) a) = true ∧
    famMem a (adj (addPair g a b) b) = true := by
  constructor
  · exact adj_mono_graphAdd b a (graphAdd_edge g a b)
  · exact graphAdd_edge (graphAdd g a b) b a

theorem graphSym_addPair {g : List (Family × List Family)} (hsym : graphSym g)
    (a b : Family) : graphSym (addPair g a b) := by
  intro x y hy
  have hadj2 : ∀ z, adj (addPair g a b) z =
      if Family.beq z b = true then famSetAdd (adj (graphAdd g a b) b) a
      else adj (graphAdd g a b) z := fun z => adj_graphAdd (graphAdd g a b) b a z
  have hadj1 : ∀ z, adj (graphAdd g a b) z =
      if Family.beq z a = true then famSetAdd (adj g a) b else adj g z :=
    fun z => adj_graphAdd g a b z
  rw [hadj2 x] at hy
  by_cases hxb : Family.beq x b = true
  · rw [if_pos hxb] at hy
    rcases mem_famSetAdd hy with hy1 | heqy
    · rw [hadj1 b] at hy1
      by_cases hba : Family.beq b a = true
      · rw [if_pos hba] at hy1
        rcases mem_famSetAdd hy1 with hy2 | heqy
        · have hsg : famMem a (adj g y) = true := hsym a y hy2
          rw [famMem_congr _ (beq_trans hxb hba)]
          exact adj_mono_addPair a b hsg
        · rw [heqy, famMem_congr _ hxb, hadj2 b, if_pos (beq_refl b)]
          refine famMem_famSetAdd_mono a ?_
          rw [hadj1 b, if_pos hba]
          exact famMem_famSetAdd_self (adj g a) b
      · rw [if_neg hba] at hy1
        have hsg : famMem b (adj g y) = true := hsym b y hy1
        rw [famMem_congr _ hxb]
        exact adj_mono_addPair a b hsg
    · rw [heqy, famMem_congr _ hxb]
      exact (addPair_edge g a b).1
  · rw [if_neg hxb] at hy
    rw [hadj1 x] at hy
    by_cases hxa : Family.beq x a = true
    · rw [if_pos hxa] at hy
      rcases mem_famSetAdd hy with hy1 | heqy
      · have hsg : famMem a (adj g y) = true := hsym a y hy1
        rw [famMem_congr _ hxa]
        exact adj_mono_addPair a b hsg
      · rw [heqy, famMem_congr _ hxa]
        exact (addPair_edge g a b).2
    · rw [if_neg hxa] at hy
      exact adj_mono_addPair a b (hsym x y hy)

theorem graphSym_innerFold (fam : Family) :
    ∀ (others : List Family) (g : List (Family × List Family)), graphSym g →
      graphSym (others.foldl (fun g other => addPair g fam other) g) := by
  intro others
  induction others with
  | nil => intro g h; exact h
  | cons o rest ih =>
    intro g h
    exact ih _ (graphSym_addPair h fam o)

theorem graphSym_buildGraph (families : List Family)
    (rmap : List (Family × List Family)) : graphSym (buildGraph families rmap) := by
  unfold buildGraph
  suffices h : ∀ (fams : List Family) (g : List (Family × List Family)),
      graphSym g → graphSym (fams.foldl (fun g fam =>
        ((assocGet Family.beq rmap fam).getD []).foldl
          (fun g other => addPair g fam other) g) g) by
    refine h families [] ?_
    intro x y hy
    simp [adj, assocGet] at hy
  intro fams
  induction fams with
  | nil => intro g h; exact h
  | cons f rest ih =>
    intro g h
    exact ih _ (graphSym_innerFold f _ g h)

theorem adj_mono_innerFold (fam : Family) {m z : Family} :
    ∀ (others : List Family) (g : List (Family × List Family)),
      famMem m (adj g z) = true →
      famMem m (adj (others.foldl (fun g other => addPair g fam other) g) z) = true := by
  intro others
  induction others with
  | nil => intro g h; exact h
  | cons o rest ih =>
    intro g h
    exact ih _ (adj_mono_addPair fam o h)

theorem adj_mono_outerFold (rmap : List (Family × List Family)) {m z : Family} :
    ∀ (fams : List Family) (g : List (Family × List Family)),
      famMem m (adj g z) = true →
      famMem m (adj (fams.foldl (fun g fam =>
        ((assocGet Family.beq rmap fam).getD []).foldl
          (fun g other => addPair g fam other) g) g) z) = true := by
  intro fams
  induction fams with
  | nil => intro g h; exact h
  | cons f rest ih =>
    intro g h
    exact ih _ (adj_mono_innerFold f _ g h)

theorem innerFold_edge (fam : Family) {other : Family} :
    ∀ (others : List Family) (g : List (Family × List Family)), other ∈ others →
      famMem other (adj (others.foldl (fun g o => addPair g fam o) g) fam) = true := by
  intro others
  induction others with
  | nil => intro g h; cases h
  | cons o rest ih =>
    intro g ho
    rcases List.mem_cons.1 ho with rfl | hm
    · exact adj_mono_innerFold fam rest _ (addPair_edge g fam other).1
    · exact ih _ hm

theorem buildGraph_edge (families : List Family) (rmap : List (Family × List Family))
    {fam other : Family} (hf : fam ∈ families)
    (ho : other ∈ (assocGet Family.beq rmap fam).getD []) :
    famMem other (adj (buildGraph families rmap) fam) = true := by
  unfold buildGraph
  suffices h : ∀ (fams : List Family) (g : List (Family × List Family)), fam ∈ fams →
      famMem other (adj (fams.foldl (fun g fam =>
        ((assocGet Family.beq rmap fam).getD []).foldl
          (fun g other => addPair g fam other) g) g) fam) = true from
    h families [] hf
  intro fams
  induction fams with
  | nil => intro g h; cases h
  | cons f rest ih =>
    intro g hmem
    rcases List.mem_cons.1 hmem with rfl | hmem
    · exact adj_mono_outerFold rmap rest _ (innerFold_edge fam _ g ho)
    · exact ih _ hmem

theorem build_fold_spec (g : List (Family × List Family)) (hsym : graphSym g) :
    ∀ (fams : List Family) (st res : List Family × List (List Family)),
      fams.foldl (fun st fam =>
        if famMem fam st.1 then st
        else
          let r := bfs g ((adjPool g).length + 1) (st.1 ++ [fam]) [fam] [fam]
          (r.1, st.2 ++ [r.2])) st = res →
      st.1 = st.2.flatten →
      (∀ x ∈ st.1, ∀ n ∈ adj g x, famMem n st.1 = true) →
      (∀ c ∈ st.2, ∀ x ∈ c, ∀ n ∈ adj g x, famMem n c = true) →
      res.1 = res.2.flatten ∧
      (∀ x, famMem x st.1 = true → famMem x res.1 = true) ∧
      (∀ x ∈ res.1, ∀ n ∈ adj g x, famMem n res.1 = true) ∧
      (∀ c ∈ res.2, ∀ x ∈ c, ∀ n ∈ adj g x, famMem n c = true) ∧
      (∀ f ∈ fams, famMem f res.1 = true) := by
  intro fams
  induction fams with
  | nil =>
    intro st res hres hflat hUC hPC
    subst hres
    exact ⟨hflat, fun x hx => hx, hUC, hPC, by simp⟩
  | cons fam rest ih =>
    intro st res hres hflat hUC hPC
    rw [List.foldl_cons] at hres
    by_cases hvis : famMem fam st.1 = true
    · rw [if_pos hvis] at hres
      obtain ⟨c1, c2, c3, c4, c5⟩ := ih st res hres hflat hUC hPC
      refine ⟨c1, c2, c3, c4, ?_⟩
      intro f hf
      rcases List.mem_cons.1 hf with rfl | hf
      · exact c2 f hvis
      · exact c5 f hf
    · rw [if_neg hvis] at hres
      simp only at hres
      obtain ⟨b1, b2, b3, b4⟩ := bfs_spec g st.1 ((adjPool g).length + 1)
        (st.1 ++ [fam]) [fam] [fam] rfl (fun x hx => hx)
        (fun x hx => Or.inl hx)
        (fun x hx => by
          rcases List.mem_singleton.1 hx with rfl
          simpa using hvis)
        (by
          have hle : unvis g (st.1 ++ [fam]) ≤ (adjPool g).length := by
            unfold unvis
            exact List.countP_le_length _
          simp only [List.length_singleton]
          omega)
      have hflatN : ((bfs g ((adjPool g).length + 1) (st.1 ++ [fam]) [fam] [fam]).1,
          st.2 ++ [(bfs g ((adjPool g).length + 1) (st.1 ++ [fam]) [fam] [fam]).2]).1 =
          ((bfs g ((adjPool g).length + 1) (st.1 ++ [fam]) [fam] [fam]).1,
          st.2 ++ [(bfs g ((adjPool g).length + 1) (st.1 ++ [fam]) [fam] [fam]).2]).2.flatten := by
        simp only
        rw [b1, hflat]
        simp
      have hUCN : ∀ x ∈ (bfs g ((adjPool g).length + 1) (st.1 ++ [fam]) [fam] [fam]).1,
          ∀ n ∈ adj g x,
          famMem n (bfs g ((adjPool g).length + 1) (st.1 ++ [fam]) [fam] [fam]).1 = true := by
        intro x hx n hn
        rw [b1] at hx ⊢
        rcases List.mem_append.1 hx with hx | hx
        · exact famMem_append_left _ (hUC x hx n hn)
        · have h4 := b4 x hx n hn
          rw [b1] at h4
          exact h4
      have hPCN : ∀ x ∈ (bfs g ((adjPool g).length + 1) (st.1 ++ [fam]) [fam] [fam]).2,
          ∀ n ∈ adj g x,
          famMem n (bfs g ((adjPool g).length + 1) (st.1 ++ [fam]) [fam] [fam]).2 = true := by
        intro x hx n hn
        have h4 := b4 x hx n hn
        rw [b1, famMem_append] at h4
        cases hst : famMem n st.1 with
        | false =>
          rw [hst] at h4
          simpa using h4
        | true =>
          exfalso
          obtain ⟨v, hv, hbv⟩ := famMem_iff.1 hst
          have hxn : famMem x (adj g n) = true := hsym x n hn
          rw [adj_congr hbv] at hxn
          obtain ⟨w, hw, hbw⟩ := famMem_iff.1 hxn
          have hwst : famMem w st.1 = true := hUC v hv w hw
          have hxst : famMem x st.1 = true := by
            rw [famMem_congr _ hbw]
            exact hwst
          have hcontra := b3 x hx
          rw [hxst] at hcontra
          cases hcontra
      have hPCall : ∀ c ∈ st.2 ++
          [(bfs g ((adjPool g).length + 1) (st.1 ++ [fam]) [fam] [fam]).2],
          ∀ x ∈ c, ∀ n ∈ adj g x, famMem n c = true := by
        intro c hc x hx n hn
        rcases List.mem_append.1 hc with hc | hc
        · exact hPC c hc x hx n hn
        · rcases List.mem_singleton.1 hc with rfl
          exact hPCN x hx n hn
      obtain ⟨c1, c2, c3, c4, c5⟩ := ih
        ((bfs g ((adjPool g).length + 1) (st.1 ++ [fam]) [fam] [fam]).1,
         st.2 ++ [(bfs g ((adjPool g).length + 1) (st.1 ++ [fam]) [fam] [fam]).2])
        res hres hflatN hUCN hPCall
      refine ⟨c1, ?_, c3, c4, ?_⟩
      · intro x hx
        refine c2 x ?_
        simp only
        rw [b1]
        exact famMem_append_left _ hx
      · intro f hf
        rcases List.mem_cons.1 hf with rfl | hf
        · refine c2 f ?_
          simp only
          rw [b1]
          exact famMem_append_right st.1
            (famMem_of_mem (b2 f (List.mem_singleton.2 rfl)))
        · exact c5 f hf

theorem famMem_flatten_split {x : Family} :
    ∀ cs : List (List Family), famMem x cs.flatten = true →
      ∃ c ∈ cs, famMem x c = true := by
  intro cs
  induction cs with
  | nil => intro h; cases h
  | cons c rest ih =>
    intro h
    rw [List.flatten_cons, famMem_append] at h
    rcases Bool.or_eq_true_iff.1 h with h | h
    · exact ⟨c, List.mem_cons_self _ _, h⟩
    · obtain ⟨c2, hc2, hx2⟩ := ih h
      exact ⟨c2, List.mem_cons_of_mem c hc2, hx2⟩

theorem famMem_flatten_of {x : Family} {c : List Family} {cs : List (List Family)}
    (hc : c ∈ cs) (hx : famMem x c = true) : famMem x cs.flatten = true := by
  obtain ⟨s, t, rfl⟩ := List.append_of_mem hc
  rw [List.flatten_append, List.flatten_cons, famMem_append, famMem_append]
  rw [hx]
  simp

theorem famMem_of_perm {x : Family} {l1 l2 : List Family} (h : List.Perm l1 l2)
    (hx : famMem x l2 = true) : famMem x l1 = true := by
  rw [famMem_iff] at hx ⊢
  obtain ⟨y, hy, hb⟩ := hx
  exact ⟨y, h.mem_iff.2 hy, hb⟩

/-- C10: if the request map maps an input unit to a target that is not a
member of the input unit list, `build_clusters` still places the target
in the requester's cluster (membership up to the code's email-based unit
equality), and the full pipeline seats it at a table — the seated units
are not restricted to the supplied list.  The capacity hypothesis
reflects the `ZeroDivisionError` the source would raise at capacity 0. -/
theorem c10_external_request_target_is_clustered_and_seated
    (families : List Family) (rmap : List (Family × List Family))
    (table_size : Nat) (fam other : Family) (_hts : 0 < table_size)
    (hf : fam ∈ families)
    (ho : other ∈ (assocGet Family.beq rmap fam).getD [])
    (_hout : famMem other families = false) :
    (∃ c ∈ build_clusters families rmap,
      famMem fam c = true ∧ famMem other c = true) ∧
    famMem other
      (joinAreas (create_area_aware_seating families rmap table_size).1) = true := by
  obtain ⟨c1, c2, c3, c4, c5⟩ := build_fold_spec (buildGraph families rmap)
    (graphSym_buildGraph families rmap) families ([], [])
    (families.foldl (fun st fam =>
      if famMem fam st.1 then st
      else
        let r := bfs (buildGraph families rmap)
          ((adjPool (buildGraph families rmap)).length + 1)
          (st.1 ++ [fam]) [fam] [fam]
        (r.1, st.2 ++ [r.2])) ([], []))
    rfl rfl (fun x hx => absurd hx (List.not_mem_nil x))
    (fun c hc => absurd hc (List.not_mem_nil c))
  have hbc : build_clusters families rmap = (families.foldl (fun st fam =>
      if famMem fam st.1 then st
      else
        let r := bfs (buildGraph families rmap)
          ((adjPool (buildGraph families rmap)).length + 1)
          (st.1 ++ [fam]) [fam] [fam]
        (r.1, st.2 ++ [r.2])) ([], [])).2 := rfl
  have hfamv := c5 fam hf
  rw [c1] at hfamv
  obtain ⟨c, hc, hfc⟩ := famMem_flatten_split _ hfamv
  have hedge := buildGraph_edge families rmap hf ho
  obtain ⟨f2, hf2, hbf⟩ := famMem_iff.1 hfc
  rw [adj_congr hbf] at hedge
  obtain ⟨o2, ho2, hbo⟩ := famMem_iff.1 hedge
  have hoc : famMem other c = true := by
    rw [famMem_congr _ hbo]
    exact c4 c hc f2 hf2 o2 ho2
  have hcbc : c ∈ build_clusters families rmap := by
    rw [hbc]
    exact hc
  refine ⟨⟨c, hcbc, hfc, hoc⟩, ?_⟩
  exact famMem_of_perm (seated_perm_clusters families rmap table_size)
    (famMem_flatten_of hcbc hoc)

/-- C10 applied at a concrete run: `aFam` is the only supplied unit and
requests `bFam`, which is absent from the unit list; `bFam` still ends
up in `aFam`'s cluster and is seated. -/
theorem c10_external_request_target_is_clustered_and_seated_witness :
    (∃ c ∈ build_clusters [aFam] [(aFam, [bFam])],
      famMem aFam c = true ∧ famMem bFam c = true) ∧
    famMem bFam
      (joinAreas (create_area_aware_seating [aFam] [(aFam, [bFam])] 10).1) = true :=
  c10_external_request_target_is_clustered_and_seated [aFam] [(aFam, [bFam])] 10
    aFam bFam (by decide) (by decide) (by decide) (by decide)

end MaitreD
